import Mathlib

set_option maxRecDepth 20000

/-!
Shallow embedding of two SQLite-to-PostgreSQL dump converters
(`convert-data-only.py` and `convert-to-postgres.py`).

Both programs are ordered sequences of regular-expression substitutions over
the whole file content.  We model the content as `List Char` and each
`re.sub` pass as a left-to-right, leftmost, non-overlapping scanner `scanM`
driven by a `Matcher` that recognises one pattern at the current position.
A matcher receives the previous character (for word boundaries, matching
Python's semantics where `re.sub` continues scanning the original string
after the end of a match) and the remaining input; on success it returns the
replacement text and `kp`, where `kp + 1` is the number of matched characters.

The wall clock (`datetime.now()`) and the local-timezone rendering of
`datetime.fromtimestamp` are effects of the environment; they are passed in
explicitly (`now : DT`, and a timezone-offset function for `fromtimestamp`).
File I/O is abstracted: the input file's text is an argument and the output
file's text, the stdout lines and the exit code form the `RunResult`.
-/

/-- Python whitespace characters (the ASCII ones of `str.strip` / regex `\s`). -/
def pyWs (c : Char) : Bool :=
  c = ' ' || c = '\t' || c = '\n' || c = '\r' || c = '\x0b' || c = '\x0c'

/-- Regex word character `\w` (ASCII): letters, digits, underscore. -/
def wordChar (c : Char) : Bool := c.isAlphanum || c = '_'

/-- A word boundary `\b` holds before a word character when the previous
character is absent (start of string) or not a word character. -/
def nbOk : Option Char → Bool
  | none => true
  | some c => !wordChar c

/-- A matcher: given the previous character and the remaining input, return
`some (repl, kp)` to replace the `kp + 1` first characters by `repl`. -/
abbrev Matcher := Option Char → List Char → Option (List Char × Nat)

/-- Fuel-indexed scanner (structural recursion; one unit of fuel per step). -/
def scanF (m : Matcher) : Nat → Option Char → List Char → List Char
  | 0, _, s => s
  | _ + 1, _, [] => []
  | fuel + 1, p, c :: cs =>
    match m p (c :: cs) with
    | some (r, kp) => r ++ scanF m fuel ((c :: cs)[kp]?) (cs.drop kp)
    | none => c :: scanF m fuel (some c) cs

/-- One substitution pass: replace every leftmost non-overlapping match of
`m` in `s`, scanning left to right, starting with previous character `p`. -/
def scanM (m : Matcher) (p : Option Char) (s : List Char) : List Char :=
  scanF m s.length p s

/-- The last character of `a`, falling back to `p` when `a` is empty: the
"previous character" seen after scanning past `a`. -/
def lastCh (p : Option Char) : List Char → Option Char
  | [] => p
  | c :: cs => lastCh (some c) cs

theorem scanF_congr (m : Matcher) :
    ∀ f₁ f₂ p s, s.length ≤ f₁ → s.length ≤ f₂ →
      scanF m f₁ p s = scanF m f₂ p s := by
  intro f₁
  induction f₁ with
  | zero =>
    intro f₂ p s h₁ _
    have hs : s = [] := List.length_eq_zero.mp (Nat.le_zero.mp h₁)
    subst hs
    cases f₂ <;> rfl
  | succ f ih =>
    intro f₂ p s h₁ h₂
    cases s with
    | nil => cases f₂ <;> rfl
    | cons c cs =>
      cases f₂ with
      | zero => exact absurd h₂ (by simp)
      | succ g =>
        simp only [scanF]
        cases hm : m p (c :: cs) with
        | none =>
          dsimp only
          have hcs : cs.length ≤ f := by
            have := h₁; simp only [List.length_cons] at this; omega
          have hcs' : cs.length ≤ g := by
            have := h₂; simp only [List.length_cons] at this; omega
          rw [ih g (some c) cs hcs hcs']
        | some rk =>
          obtain ⟨r, kp⟩ := rk
          dsimp only
          have hlen : (cs.drop kp).length ≤ cs.length := by
            simp [List.length_drop]
          have hcs : cs.length ≤ f := by
            have := h₁; simp only [List.length_cons] at this; omega
          have hcs' : cs.length ≤ g := by
            have := h₂; simp only [List.length_cons] at this; omega
          rw [ih g ((c :: cs)[kp]?) (cs.drop kp) (le_trans hlen hcs) (le_trans hlen hcs')]

@[simp] theorem scanM_nil (m : Matcher) (p : Option Char) : scanM m p [] = [] := rfl

theorem scanM_cons_none (m : Matcher) (p : Option Char) (c : Char) (cs : List Char)
    (h : m p (c :: cs) = none) :
    scanM m p (c :: cs) = c :: scanM m (some c) cs := by
  simp only [scanM, List.length_cons, scanF, h]

theorem scanM_cons_some (m : Matcher) (p : Option Char) (c : Char) (cs : List Char)
    (r : List Char) (kp : Nat) (h : m p (c :: cs) = some (r, kp)) :
    scanM m p (c :: cs) = r ++ scanM m ((c :: cs)[kp]?) (cs.drop kp) := by
  simp only [scanM, List.length_cons, scanF, h]
  congr 1
  exact scanF_congr m cs.length (cs.drop kp).length ((c :: cs)[kp]?) (cs.drop kp)
    (by simp [List.length_drop]) le_rfl

theorem lastCh_cons (p : Option Char) (c : Char) (a : List Char) :
    lastCh p (c :: a) = lastCh (some c) a := rfl

/-- Scanning past a region where the matcher never fires emits it verbatim. -/
theorem scanM_append (m : Matcher) (p : Option Char) (a b : List Char)
    (h : ∀ q n, n < a.length → m q ((a ++ b).drop n) = none) :
    scanM m p (a ++ b) = a ++ scanM m (lastCh p a) b := by
  induction a generalizing p with
  | nil => simp [lastCh]
  | cons c a' ih =>
    have h0 : m p (c :: (a' ++ b)) = none := by
      have := h p 0 (by simp)
      simpa using this
    rw [List.cons_append, scanM_cons_none m p c (a' ++ b) h0, lastCh_cons]
    congr 1
    apply ih
    intro q n hn
    have := h q (n + 1) (by simpa using Nat.succ_lt_succ hn)
    simpa using this

/-- If the matcher never fires on any nonempty suffix, the pass is the identity. -/
theorem scanM_id_of_none (m : Matcher) (p : Option Char) (s : List Char)
    (h : ∀ q n, n < s.length → m q (s.drop n) = none) :
    scanM m p s = s := by
  induction s generalizing p with
  | nil => rfl
  | cons c cs ih =>
    have h0 : m p (c :: cs) = none := by
      have := h p 0 (by simp); simpa using this
    rw [scanM_cons_none m p c cs h0]
    congr 1
    apply ih
    intro q n hn
    have := h q (n + 1) (by simpa using Nat.succ_lt_succ hn)
    simpa using this

/-- If every match's replacement is exactly the matched text, the pass is the identity. -/
theorem scanM_id_of_repl (m : Matcher)
    (hrepl : ∀ q c cs r kp, m q (c :: cs) = some (r, kp) → r = (c :: cs).take (kp + 1)) :
    ∀ p s, scanM m p s = s := by
  suffices h : ∀ fuel p s, s.length ≤ fuel → scanF m fuel p s = s by
    intro p s; exact h s.length p s le_rfl
  intro fuel
  induction fuel with
  | zero => intro p s _; rfl
  | succ f ih =>
    intro p s hlen
    cases s with
    | nil => rfl
    | cons c cs =>
      simp only [scanF]
      cases hm : m p (c :: cs) with
      | none =>
        dsimp only
        rw [ih (some c) cs (by simp at hlen; omega)]
      | some rk =>
        obtain ⟨r, kp⟩ := rk
        dsimp only
        have hr := hrepl p c cs r kp hm
        have hdrop : (cs.drop kp).length ≤ f := by
          simp only [List.length_drop]
          simp only [List.length_cons] at hlen
          omega
        rw [ih ((c :: cs)[kp]?) (cs.drop kp) hdrop, hr]
        have : (c :: cs).take (kp + 1) ++ cs.drop kp = c :: cs := by
          have := List.take_append_drop (kp + 1) (c :: cs)
          simpa using this
        exact this

/-- If every match's replacement has the same count of `x` as the matched
text, the pass preserves the count of `x`. -/
theorem scanM_count (m : Matcher) (x : Char)
    (hc : ∀ q c cs r kp, m q (c :: cs) = some (r, kp) →
      r.count x = ((c :: cs).take (kp + 1)).count x) :
    ∀ p s, (scanM m p s).count x = s.count x := by
  suffices h : ∀ fuel p s, s.length ≤ fuel → (scanF m fuel p s).count x = s.count x by
    intro p s; exact h s.length p s le_rfl
  intro fuel
  induction fuel with
  | zero => intro p s _; rfl
  | succ f ih =>
    intro p s hlen
    cases s with
    | nil => rfl
    | cons c cs =>
      simp only [scanF]
      cases hm : m p (c :: cs) with
      | none =>
        dsimp only
        simp only [List.count_cons]
        rw [ih (some c) cs (by simp at hlen; omega)]
      | some rk =>
        obtain ⟨r, kp⟩ := rk
        dsimp only
        have hr := hc p c cs r kp hm
        have hdrop : (cs.drop kp).length ≤ f := by
          simp only [List.length_drop]; simp only [List.length_cons] at hlen; omega
        have hsplit : (c :: cs).take (kp + 1) ++ cs.drop kp = c :: cs := by
          have := List.take_append_drop (kp + 1) (c :: cs)
          simpa using this
        have hsum : (c :: cs).count x =
            ((c :: cs).take (kp + 1)).count x + (cs.drop kp).count x := by
          conv_lhs => rw [← hsplit]
          rw [List.count_append]
        rw [List.count_append, hr, ih ((c :: cs)[kp]?) (cs.drop kp) hdrop, ← hsum]

/-- Decompose a string at the first position where a (previous-character
oblivious) matcher fires, if any. -/
theorem scanM_split (m : Matcher) (hm : ∀ q q' t, m q t = m q' t) (s : List Char) :
    (∀ q n, n < s.length → m q (s.drop n) = none) ∨
    ∃ a b, s = a ++ b ∧ (∀ q n, n < a.length → m q (s.drop n) = none) ∧
      ∃ r kp, m none b = some (r, kp) := by
  induction s with
  | nil => left; intro q n hn; simp at hn
  | cons c cs ih =>
    cases hm0 : m none (c :: cs) with
    | some rk =>
      right
      exact ⟨[], c :: cs, by simp, by intro q n hn; simp at hn, rk.1, rk.2, by simpa using hm0⟩
    | none =>
      cases ih with
      | inl hall =>
        left
        intro q n hn
        cases n with
        | zero => simpa using (hm q none (c :: cs)).trans hm0
        | succ n' =>
          have := hall q n' (by simpa using Nat.lt_of_succ_lt_succ hn)
          simpa using this
      | inr hex =>
        obtain ⟨a, b, hab, hnon, r, kp, hfire⟩ := hex
        right
        refine ⟨c :: a, b, by simp [hab], ?_, r, kp, hfire⟩
        intro q n hn
        cases n with
        | zero => simpa using (hm q none (c :: cs)).trans hm0
        | succ n' =>
          have := hnon q n' (by simpa using Nat.lt_of_succ_lt_succ hn)
          simpa using this

/-! ## Matchers for the individual substitution rules -/

/-- `neChar y x`: the character `x` differs from `y` (the negated character
classes `[^y]` of the regexes). -/
def neChar (y x : Char) : Bool := x ≠ y

/-- Literal pattern `pat` replaced by `repl` (a regex with no metacharacters). -/
def litM (pat repl : List Char) : Matcher := fun _ s =>
  if pat.isPrefixOf s && !pat.isEmpty then some (repl, pat.length - 1) else none

/-- Case-sensitive whole word: regex `\bpat\b` replaced by `repl`
(`pat` starts and ends with word characters, as all uses here do). -/
def wordM (pat repl : List Char) : Matcher := fun p s =>
  if nbOk p && pat.isPrefixOf s && !pat.isEmpty &&
      !((s.drop pat.length).head?.any wordChar) then
    some (repl, pat.length - 1)
  else none

def lowerList (l : List Char) : List Char := l.map Char.toLower

/-- `pat` (given lowercase) is a case-insensitive prefix of `s`. -/
def ciPrefixOf (pat s : List Char) : Bool := pat.isPrefixOf (lowerList (s.take pat.length))

/-- Case-insensitive whole word: regex `\bpat\b` with `re.IGNORECASE`. -/
def wordCIM (pat repl : List Char) : Matcher := fun p s =>
  if nbOk p && ciPrefixOf pat s && !pat.isEmpty &&
      !((s.drop pat.length).head?.any wordChar) then
    some (repl, pat.length - 1)
  else none

/-- The literal part of the table-name rule `INSERT INTO ([^"\s(]+)`. -/
def insLit : List Char := "INSERT INTO ".toList

/-- A character allowed in the captured table name: not `"`, whitespace or `(`. -/
def nameChar (c : Char) : Bool := !(c = '"' || pyWs c || c = '(')

/-- `re.sub(r'INSERT INTO ([^"\s(]+)', r'INSERT INTO "\1"', _)` (both converters). -/
def insM : Matcher := fun _ s =>
  if insLit.isPrefixOf s then
    let nm := (s.drop 12).takeWhile nameChar
    if nm.isEmpty then none
    else some (insLit ++ '"' :: (nm ++ ['"']), 11 + nm.length)
  else none

/-- `int()` on a decimal digit string. -/
def parseDec : List Char → Nat := List.foldl (fun a c => a * 10 + (c.toNat - 48)) 0

/-- The effective epoch-seconds value of a matched digit string:
`timestamp_int`, divided by 1000 (floor) when above `1e10` (milliseconds). -/
def tsEff (ts : List Char) : Nat :=
  let n := parseDec ts
  if 10000000000 < n then n / 1000 else n

/-- The per-match callback of the data-only converter: convert a Unix
timestamp (seconds or milliseconds) to a quoted PostgreSQL timestamp,
falling back to the quoted original digits when the (environment-supplied)
calendar conversion `ft` fails. -/
def unix_timestamp_to_postgres (ft : Int → Option (List Char)) (ts : List Char) : List Char :=
  match ft ((tsEff ts : Nat) : Int) with
  | some f => '\'' :: (f ++ ['\''])
  | none => '\'' :: (ts ++ ['\''])

/-- `re.sub(r'\b(1[0-9]{9,12})\b', unix_timestamp_to_postgres, _)`.
A match needs: word boundary before, leading digit `1`, a maximal digit run
of 10..13 characters, and no word character after the run (matching the
regex engine's backtracking: any shorter take still ends before a digit). -/
def tsM (ft : Int → Option (List Char)) : Matcher := fun p s =>
  if nbOk p then
    match s.head? with
    | some c =>
      if c = '1' then
        let ds := s.takeWhile Char.isDigit
        if 10 ≤ ds.length && ds.length ≤ 13 &&
            !((s.drop ds.length).head?.any wordChar) then
          some (unix_timestamp_to_postgres ft ds, ds.length - 1)
        else none
      else none
    | none => none
  else none

/-- The backtick character (Python regex pattern uses it literally). -/
def btChar : Char := Char.ofNat 96

/-- `re.sub(r'`([^`]+)`', r'"\1"', _)`: replace backtick quoting by double quotes. -/
def btM : Matcher := fun _ s =>
  match s with
  | c :: rest =>
    if c = btChar then
      let inner := rest.takeWhile (neChar btChar)
      if inner.isEmpty then none
      else match (rest.drop inner.length).head? with
        | some _ => some ('"' :: (inner ++ ['"']), inner.length + 1)
        | none => none
    else none
  | [] => none

/-- `re.sub(r'""([^"]+)""', r'"\1"', _)`: collapse doubled double quotes. -/
def ddqM : Matcher := fun _ s =>
  match s with
  | '"' :: '"' :: rest =>
    let inner := rest.takeWhile (neChar '"')
    if inner.isEmpty then none
    else if ['"', '"'].isPrefixOf (rest.drop inner.length) then
      some ('"' :: (inner ++ ['"']), inner.length + 3)
    else none
  | _ => none

/-- The literal part of the foreign-key rule `REFERENCES ([^(]+)\(([^)]+)\)`. -/
def refLit : List Char := "REFERENCES ".toList

/-- `re.sub(r'REFERENCES ([^(]+)\(([^)]+)\)', r'REFERENCES "\1"("\2")', _)`. -/
def refM : Matcher := fun _ s =>
  if refLit.isPrefixOf s then
    let tbl := (s.drop 11).takeWhile (neChar '(')
    if tbl.isEmpty then none
    else
      match s.drop (11 + tbl.length) with
      | '(' :: rest2 =>
        let col := rest2.takeWhile (neChar ')')
        if col.isEmpty then none
        else match rest2.drop col.length with
          | ')' :: _ =>
            some (refLit ++ '"' :: (tbl ++ '"' :: '(' :: '"' :: (col ++ ['"', ')'])),
              12 + tbl.length + col.length)
          | _ => none
      | _ => none
  else none

/-- `re.sub(r'PRAGMA[^;]+;', '', _)`: drop SQLite pragma directives. -/
def pragmaM : Matcher := fun _ s =>
  if "PRAGMA".toList.isPrefixOf s then
    let t := (s.drop 6).takeWhile (neChar ';')
    if t.isEmpty then none
    else match (s.drop (6 + t.length)).head? with
      | some _ => some ([], 6 + t.length)
      | none => none
  else none

/-- Index of the last occurrence of `x` in `w`, if any. -/
def lastIdxOf (x : Char) (w : List Char) : Option Nat :=
  match w.reverse.findIdx? (fun c => c = x) with
  | some i => some (w.length - 1 - i)
  | none => none

/-- `re.sub(r'\n\s*\n', '\n\n', _)`: collapse runs of blank lines.  After the
first newline the engine takes the maximal whitespace run and backtracks to
the last newline inside it. -/
def nlM : Matcher := fun _ s =>
  match s with
  | '\n' :: rest =>
    let w := rest.takeWhile pyWs
    match lastIdxOf '\n' w with
    | some j => some (['\n', '\n'], j + 1)
    | none => none
  | _ => none

/-- `re.sub(r'INSERT INTO "([^"]+)" VALUES\(NULL,', r'INSERT INTO "\1" VALUES(DEFAULT,', _)`. -/
def insNullM : Matcher := fun _ s =>
  if "INSERT INTO \"".toList.isPrefixOf s then
    let nm := (s.drop 13).takeWhile (neChar '"')
    if nm.isEmpty then none
    else if "\" VALUES(NULL,".toList.isPrefixOf (s.drop (13 + nm.length)) then
      some ("INSERT INTO \"".toList ++ (nm ++ "\" VALUES(DEFAULT,".toList), 26 + nm.length)
    else none
  else none

/-! ## The local-calendar model for `datetime.fromtimestamp` / `strftime` -/

/-- A broken-down calendar timestamp (the fields `strftime` renders). -/
structure DT where
  y : Nat
  mo : Nat
  d : Nat
  h : Nat
  mi : Nat
  s : Nat
deriving DecidableEq

/-- Decimal digit character of `n % 10`. -/
def digCh (n : Nat) : Char :=
  match n % 10 with
  | 0 => '0' | 1 => '1' | 2 => '2' | 3 => '3' | 4 => '4'
  | 5 => '5' | 6 => '6' | 7 => '7' | 8 => '8' | _ => '9'

/-- Two-digit zero-padded decimal rendering (correct for values < 100). -/
def pad2 (n : Nat) : List Char := [digCh (n / 10), digCh n]

/-- Four-digit zero-padded decimal rendering (correct for values < 10000). -/
def pad4 (n : Nat) : List Char :=
  [digCh (n / 1000), digCh (n / 100), digCh (n / 10), digCh n]

/-- `strftime('%Y-%m-%d %H:%M:%S')`. -/
def fmtDT (dt : DT) : List Char :=
  pad4 dt.y ++ '-' :: (pad2 dt.mo ++ '-' :: (pad2 dt.d ++ ' ' ::
    (pad2 dt.h ++ ':' :: (pad2 dt.mi ++ ':' :: pad2 dt.s))))

/-- Gregorian calendar fields from nonnegative epoch seconds
(Howard Hinnant's civil-from-days algorithm, as used by C libraries). -/
def civilFromSecs (t : Nat) : DT :=
  let days := t / 86400
  let secs := t % 86400
  let z := days + 719468
  let era := z / 146097
  let doe := z % 146097
  let yoe := (doe - doe / 1460 + doe / 36524 - doe / 146097) / 365
  let y := yoe + era * 400
  let doy := doe - (365 * yoe + yoe / 4 - yoe / 100)
  let mp := (5 * doy + 2) / 153
  let dd := doy - (153 * mp + 2) / 5 + 1
  let m := if mp < 10 then mp + 3 else mp - 9
  ⟨if m ≤ 2 then y + 1 else y, m, dd, secs / 3600, secs % 3600 / 60, secs % 60⟩

/-- Model of `datetime.fromtimestamp(t).strftime('%Y-%m-%d %H:%M:%S')` for a
local timezone given as an offset function `tz` (seconds east of UTC at a
given instant); fails (`None`) outside datetime's representable range,
matching the `ValueError`/`OSError` the Python code catches. -/
def ftOf (tz : Int → Int) (t : Int) : Option (List Char) :=
  let loc : Int := t + tz t
  if 0 ≤ loc ∧ loc ≤ 253402300799 then some (fmtDT (civilFromSecs loc.toNat)) else none

/-! ## Line splitting and filtering (data-only converter) -/

/-- Python `content.split('\n')`. -/
def splitNl : List Char → List (List Char)
  | [] => [[]]
  | c :: cs =>
    if c = '\n' then [] :: splitNl cs
    else match splitNl cs with
      | t :: ts => (c :: t) :: ts
      | [] => [[c]]

/-- `'\n'.join(lines)`. -/
def joinNl : List (List Char) → List Char
  | [] => []
  | [l] => l
  | l :: ls => l ++ '\n' :: joinNl ls

/-- Python `str.strip()` (both ends, whitespace). -/
def pyStrip (l : List Char) : List Char :=
  ((l.dropWhile pyWs).reverse.dropWhile pyWs).reverse

/-- `line.strip().startswith('INSERT INTO')`. -/
def isInsertLine (l : List Char) : Bool :=
  "INSERT INTO".toList.isPrefixOf (pyStrip l)

/-! ## The two pipelines -/

/-- The six positional boolean rewrites of the data-only converter, in
source order. -/
def boolPasses (s : List Char) : List Char :=
  let s1 := scanM (litM ",0,".toList ",FALSE,".toList) none s
  let s2 := scanM (litM ",1,".toList ",TRUE,".toList) none s1
  let s3 := scanM (litM "(0,".toList "(FALSE,".toList) none s2
  let s4 := scanM (litM "(1,".toList "(TRUE,".toList) none s3
  let s5 := scanM (litM ",0)".toList ",FALSE)".toList) none s4
  scanM (litM ",1)".toList ",TRUE)".toList) none s5

/-- The substitution passes the data-only converter applies to the joined
INSERT lines, in source order. -/
def dataPasses (ft : Int → Option (List Char)) (s : List Char) : List Char :=
  let s1 := scanM insM none s
  let s2 := scanM (tsM ft) none s1
  let s3 := boolPasses s2
  let s4 := scanM (litM "VALUES(NULL,".toList "VALUES(DEFAULT,".toList) none s3
  scanM ddqM none s4

/-- The part of the data-only preamble after the `-- Generated on` line. -/
def dataPreTail : List Char :=
  "SET client_encoding = 'UTF8';\nSET standard_conforming_strings = on;\n\n-- Temporarily disable foreign key checks for data import\nSET session_replication_role = replica;\n\n".toList

/-- Fixed text before the converted content (data-only converter); the
generation timestamp `nowStr` is spliced in.  Written here split at the
newlines around the generated-on line; the concatenation is character for
character the f-string of the source. -/
def dataPreamble (nowStr : List Char) : List Char :=
  "-- Data import for PostgreSQL (converted from SQLite)".toList ++
    '\n' :: ("-- Generated on ".toList ++ (nowStr ++ '\n' :: dataPreTail))

/-- Fixed text after the converted content (data-only converter). -/
def dataPostamble : List Char :=
  "\n\n-- Re-enable foreign key checks\nSET session_replication_role = DEFAULT;\n".toList

/-- `convert_sqlite_data_to_postgres`: returns the written output file
content (if any) and the stdout lines it prints.  `ft` is the
local-calendar conversion, `now` the current wall-clock time. -/
def convert_sqlite_data_to_postgres (ft : Int → Option (List Char)) (now : DT)
    (inFile outFile input : List Char) : Option (List Char) × List (List Char) :=
  let ins := (splitNl input).filter isInsertLine
  if ins.isEmpty then
    (none, ["No INSERT statements found in input file".toList])
  else
    (some (dataPreamble (fmtDT now) ++ (dataPasses ft (joinNl ins) ++ dataPostamble)),
     ["Converted ".toList ++ (Nat.toDigits 10 ins.length ++
       (" INSERT statements from ".toList ++ (inFile ++ (" to ".toList ++ outFile))))])

/-- Result of one process run: stdout lines, output file content (if
written), exit code. -/
structure RunResult where
  stdout : List (List Char)
  written : Option (List Char)
  exitCode : Nat
deriving DecidableEq

/-- `main` of convert-data-only.py (I/O errors out of scope: the input text
is supplied). -/
def mainDataOnly (ft : Int → Option (List Char)) (now : DT)
    (inFile outFile input : List Char) : RunResult :=
  let r := convert_sqlite_data_to_postgres ft now inFile outFile input
  ⟨r.2 ++ ["Data conversion completed successfully!".toList], r.1, 0⟩

/-- The pattern replaced by rule `\bINTEGER PRIMARY KEY AUTOINCREMENT\b`
(IGNORECASE), lowered for the case-insensitive matcher. -/
def aiLit : List Char := "integer primary key autoincrement".toList

/-- The substitution passes of convert-to-postgres.py, in source order. -/
def schemaPasses (s : List Char) : List Char :=
  let s1 := scanM pragmaM none s
  let s2 := scanM btM none s1
  let s3 := scanM (wordCIM "integer".toList "INTEGER".toList) none s2
  let s4 := scanM (wordCIM "text".toList "TEXT".toList) none s3
  let s5 := scanM (wordCIM "real".toList "REAL".toList) none s4
  let s6 := scanM (wordCIM "numeric".toList "NUMERIC".toList) none s5
  let s7 := scanM (wordCIM aiLit "SERIAL PRIMARY KEY".toList) none s6
  let s8 := scanM (wordM "id SERIAL PRIMARY KEY".toList "id SERIAL PRIMARY KEY".toList) none s7
  let s9 := scanM (litM "DEFAULT (CURRENT_TIMESTAMP)".toList "DEFAULT CURRENT_TIMESTAMP".toList) none s8
  let s10 := scanM (litM "DEFAULT CURRENT_TIMESTAMP".toList "DEFAULT CURRENT_TIMESTAMP".toList) none s9
  let s11 := scanM (wordM "false".toList "FALSE".toList) none s10
  let s12 := scanM (wordM "true".toList "TRUE".toList) none s11
  let s13 := scanM insM none s12
  let s14 := scanM insNullM none s13
  let s15 := scanM (litM "VALUES(NULL,".toList "VALUES(DEFAULT,".toList) none s14
  let s16 := scanM refM none s15
  scanM nlM none s16

/-- Fixed text prepended by convert-to-postgres.py. -/
def schemaPreamble : List Char :=
  "-- Converted from SQLite to PostgreSQL\nSET client_encoding = 'UTF8';\nSET standard_conforming_strings = on;\n\n".toList

/-- `convert_sqlite_to_postgres`: the full schema-and-data conversion, a
pure function of the input text. -/
def convert_sqlite_to_postgres (input : List Char) : List Char :=
  schemaPreamble ++ schemaPasses input

/-- `main` of convert-to-postgres.py.  The run environment's clock `now` is
passed for uniformity with the data-only converter; this program never
reads it. -/
def mainToPostgres (now : DT) (inFile outFile input : List Char) : RunResult :=
  let _ := now
  ⟨["Converted ".toList ++ (inFile ++ (" to ".toList ++ outFile)),
    "Conversion completed successfully!".toList],
   some (convert_sqlite_to_postgres input), 0⟩

/-! ## Spec-side and comparison definitions used by individual claims -/

/-- The six boolean rewrites of the data-only converter as claim C3 words
them: every single `0`/`1` character immediately preceded by `,` or `(` and
immediately followed by `,` or `)` is replaced (simultaneously, per
character of the input).  Built from the claim's words, for comparison with
the source-derived `boolPasses`. -/
def boolClaimGo : Option Char → List Char → List Char
  | _, [] => []
  | p, c :: cs =>
    let okL := p = some ',' || p = some '('
    let okR := match cs.head? with
      | some d => d = ',' || d = ')'
      | none => false
    if (c = '0' || c = '1') && okL && okR then
      (if c = '0' then "FALSE".toList else "TRUE".toList) ++ boolClaimGo (some c) cs
    else c :: boolClaimGo (some c) cs

/-- See `boolClaimGo`. -/
def boolClaimRewrite (s : List Char) : List Char := boolClaimGo none s

/-- Does `pat` occur as a contiguous sublist of `s`?  (Executable form used
in hypotheses so witnesses can discharge them by `decide`.) -/
def hasOcc (pat : List Char) : List Char → Bool
  | [] => pat.isPrefixOf []
  | c :: cs => pat.isPrefixOf (c :: cs) || hasOcc pat cs

/-- convert-to-postgres.py with the two identity rules (line 31:
`\bid SERIAL PRIMARY KEY\b` -> itself, line 35: `DEFAULT CURRENT_TIMESTAMP`
-> itself) removed; used by claim C9. -/
def schemaPassesPruned (s : List Char) : List Char :=
  let s1 := scanM pragmaM none s
  let s2 := scanM btM none s1
  let s3 := scanM (wordCIM "integer".toList "INTEGER".toList) none s2
  let s4 := scanM (wordCIM "text".toList "TEXT".toList) none s3
  let s5 := scanM (wordCIM "real".toList "REAL".toList) none s4
  let s6 := scanM (wordCIM "numeric".toList "NUMERIC".toList) none s5
  let s7 := scanM (wordCIM aiLit "SERIAL PRIMARY KEY".toList) none s6
  let s9 := scanM (litM "DEFAULT (CURRENT_TIMESTAMP)".toList "DEFAULT CURRENT_TIMESTAMP".toList) none s7
  let s11 := scanM (wordM "false".toList "FALSE".toList) none s9
  let s12 := scanM (wordM "true".toList "TRUE".toList) none s11
  let s13 := scanM insM none s12
  let s14 := scanM insNullM none s13
  let s15 := scanM (litM "VALUES(NULL,".toList "VALUES(DEFAULT,".toList) none s14
  let s16 := scanM refM none s15
  scanM nlM none s16

/-- See `schemaPassesPruned`. -/
def convert_sqlite_to_postgres_pruned (input : List Char) : List Char :=
  schemaPreamble ++ schemaPassesPruned input

/-- Remove the second line of a text (used to compare data-only outputs
produced at different wall-clock times, whose `-- Generated on` line differs). -/
def dropSecondLine (s : List Char) : List Char := joinNl ((splitNl s).eraseIdx 1)

/-! ## Basic helper lemmas -/

theorem isPrefixOf_eq_true_iff {l₁ l₂ : List Char} :
    l₁.isPrefixOf l₂ = true ↔ l₁ <+: l₂ := by
  induction l₁ generalizing l₂ with
  | nil => simp [List.isPrefixOf]
  | cons a t ih =>
    cases l₂ with
    | nil => simp [List.isPrefixOf]
    | cons b t₂ =>
      simp [List.isPrefixOf, ih, List.cons_prefix_cons]

theorem take_of_isPrefixOf {l₁ l₂ : List Char} (h : l₁.isPrefixOf l₂ = true) :
    l₂.take l₁.length = l₁ := by
  have := isPrefixOf_eq_true_iff.mp h
  exact (List.prefix_iff_eq_take.mp this).symm

theorem takeWhile_append_all (q : Char → Bool) (a b : List Char)
    (ha : ∀ c ∈ a, q c = true) :
    (a ++ b).takeWhile q = a ++ b.takeWhile q := by
  induction a with
  | nil => rfl
  | cons c a' ih =>
    have hc : q c = true := ha c (by simp)
    simp only [List.cons_append, List.takeWhile_cons_of_pos hc]
    rw [ih (fun x hx => ha x (by simp [hx]))]

theorem hasOcc_false_drop (pat : List Char) (hp : pat ≠ []) :
    ∀ s : List Char, hasOcc pat s = false → ∀ n, pat.isPrefixOf (s.drop n) = false := by
  intro s
  induction s with
  | nil =>
    intro _ n
    simp only [List.drop_nil]
    cases hq : pat.isPrefixOf ([] : List Char)
    · rfl
    · exact absurd (List.prefix_nil.mp (isPrefixOf_eq_true_iff.mp hq)) hp
  | cons c cs ih =>
    intro h n
    simp only [hasOcc, Bool.or_eq_false_iff] at h
    cases n with
    | zero => exact h.1
    | succ n' => exact ih h.2 n'

theorem scanM_litM_self (pat : List Char) (p : Option Char) (s : List Char) :
    scanM (litM pat pat) p s = s := by
  apply scanM_id_of_repl
  intro q c cs r kp h
  unfold litM at h
  split at h
  case isTrue hc =>
    simp only [Option.some.injEq, Prod.mk.injEq] at h
    simp only [Bool.and_eq_true, Bool.not_eq_true'] at hc
    obtain ⟨hpre, hne⟩ := hc
    have hlen : pat.length ≠ 0 := by
      intro h0
      rw [List.length_eq_zero.mp h0] at hne
      simp at hne
    have htake := take_of_isPrefixOf hpre
    rw [← h.1, ← htake]
    congr 1
    omega
  case isFalse => cases h

theorem scanM_wordM_self (pat : List Char) (p : Option Char) (s : List Char) :
    scanM (wordM pat pat) p s = s := by
  apply scanM_id_of_repl
  intro q c cs r kp h
  unfold wordM at h
  split at h
  case isTrue hc =>
    simp only [Option.some.injEq, Prod.mk.injEq] at h
    simp only [Bool.and_eq_true, Bool.not_eq_true'] at hc
    obtain ⟨⟨⟨_, hpre⟩, hne⟩, _⟩ := hc
    have hlen : pat.length ≠ 0 := by
      intro h0
      rw [List.length_eq_zero.mp h0] at hne
      simp at hne
    have htake := take_of_isPrefixOf hpre
    rw [← h.1, ← htake]
    congr 1
    omega
  case isFalse => cases h

/-- C9: the two self-replacing rules of convert-to-postgres.py are identity
transformations, and removing them from the pipeline leaves the converter's
output function unchanged on every input. -/
theorem C9_identity_rules :
    (∀ p s, scanM (wordM "id SERIAL PRIMARY KEY".toList "id SERIAL PRIMARY KEY".toList) p s = s) ∧
    (∀ p s, scanM (litM "DEFAULT CURRENT_TIMESTAMP".toList "DEFAULT CURRENT_TIMESTAMP".toList) p s = s) ∧
    ∀ input, convert_sqlite_to_postgres input = convert_sqlite_to_postgres_pruned input := by
  refine ⟨fun p s => scanM_wordM_self _ p s, fun p s => scanM_litM_self _ p s, fun input => ?_⟩
  simp only [convert_sqlite_to_postgres, convert_sqlite_to_postgres_pruned,
    schemaPasses, schemaPassesPruned, scanM_wordM_self, scanM_litM_self]

/-- C5: on input with no line whose stripped content starts with
`INSERT INTO`, the data-only converter prints the diagnostic to stdout,
writes no output file, and the run exits with code 0. -/
theorem C5_no_insert_run (ft : Int → Option (List Char)) (now : DT)
    (inFile outFile input : List Char)
    (h : (splitNl input).filter isInsertLine = []) :
    "No INSERT statements found in input file".toList ∈
      (mainDataOnly ft now inFile outFile input).stdout ∧
    (mainDataOnly ft now inFile outFile input).written = none ∧
    (mainDataOnly ft now inFile outFile input).exitCode = 0 := by
  simp [mainDataOnly, convert_sqlite_data_to_postgres, h]

theorem C5_witness :
    ((splitNl "CREATE TABLE x (a integer);\nPRAGMA foo;".toList).filter isInsertLine = []) ∧
    ("No INSERT statements found in input file".toList ∈
      (mainDataOnly (fun _ => none) ⟨2024, 1, 1, 0, 0, 0⟩ [] []
        "CREATE TABLE x (a integer);\nPRAGMA foo;".toList).stdout ∧
    (mainDataOnly (fun _ => none) ⟨2024, 1, 1, 0, 0, 0⟩ [] []
      "CREATE TABLE x (a integer);\nPRAGMA foo;".toList).written = none ∧
    (mainDataOnly (fun _ => none) ⟨2024, 1, 1, 0, 0, 0⟩ [] []
      "CREATE TABLE x (a integer);\nPRAGMA foo;".toList).exitCode = 0) :=
  ⟨by decide, C5_no_insert_run _ _ _ _ _ (by decide)⟩

theorem headNotWord_takeWhile_digit (post : List Char)
    (hpost : ∀ c, post.head? = some c → wordChar c = false) :
    post.takeWhile Char.isDigit = [] := by
  cases post with
  | nil => rfl
  | cons c cs =>
    have hw := hpost c rfl
    have hd : ¬ Char.isDigit c = true := by
      intro hdig
      have : wordChar c = true := by
        simp [wordChar, Char.isAlphanum, hdig]
      rw [hw] at this
      cases this
    rw [List.takeWhile_cons_of_neg hd]

/-- The timestamp rule fires at the head of `d ++ post` exactly as the
regex `\b(1[0-9]{9,12})\b` does, consuming all of `d`. -/
theorem tsM_head_match (ft : Int → Option (List Char)) (p : Option Char) (d post : List Char)
    (hb : nbOk p = true) (h1 : d.head? = some '1')
    (hd : ∀ c ∈ d, c.isDigit = true) (hlen10 : 10 ≤ d.length) (hlen13 : d.length ≤ 13)
    (hpost : ∀ c, post.head? = some c → wordChar c = false) :
    tsM ft p (d ++ post) = some (unix_timestamp_to_postgres ft d, d.length - 1) := by
  obtain ⟨c, d', rfl⟩ : ∃ c d', d = c :: d' := by
    cases d with
    | nil => cases h1
    | cons c d' => exact ⟨c, d', rfl⟩
  have hc : c = '1' := by simpa using h1
  subst hc
  have htw : ((('1' :: d') ++ post).takeWhile Char.isDigit) = '1' :: d' := by
    rw [takeWhile_append_all Char.isDigit _ _ hd,
      headNotWord_takeWhile_digit post hpost, List.append_nil]
  have hdrop : (('1' :: d') ++ post).drop ('1' :: d').length = post :=
    List.drop_left _ _
  have hposthead : post.head?.any wordChar = false := by
    cases post with
    | nil => rfl
    | cons c' cs' => simpa using hpost c' rfl
  unfold tsM
  simp only [List.cons_append] at htw hdrop
  simp only [List.length_cons] at hlen10 hlen13
  simp [hb, htw, hdrop, hposthead, hlen10, hlen13]

/-- C8: whenever the calendar-timestamp construction for a matched digit
sequence fails, the per-match callback returns the original digit string
wrapped in single quotes, and the pass continues scanning the remaining
input normally instead of aborting. -/
theorem C8_fallback_behaviour :
    (∀ (ft : Int → Option (List Char)) (ts : List Char),
       ft ((tsEff ts : Nat) : Int) = none →
       unix_timestamp_to_postgres ft ts = '\'' :: (ts ++ ['\''])) ∧
    (∀ (ft : Int → Option (List Char)) (p : Option Char) (d post : List Char),
       nbOk p = true → d.head? = some '1' → (∀ c ∈ d, c.isDigit = true) →
       10 ≤ d.length → d.length ≤ 13 →
       (∀ c, post.head? = some c → wordChar c = false) →
       ft ((tsEff d : Nat) : Int) = none →
       scanM (tsM ft) p (d ++ post) =
         ('\'' :: (d ++ ['\''])) ++ scanM (tsM ft) ((d ++ post)[d.length - 1]?) post) := by
  constructor
  · intro ft ts h
    unfold unix_timestamp_to_postgres
    rw [h]
  · intro ft p d post hb h1 hd h10 h13 hpost hfail
    have hm := tsM_head_match ft p d post hb h1 hd h10 h13 hpost
    have hquote : unix_timestamp_to_postgres ft d = '\'' :: (d ++ ['\'']) := by
      unfold unix_timestamp_to_postgres
      rw [hfail]
    obtain ⟨c, d', rfl⟩ : ∃ c d', d = c :: d' := by
      cases d with
      | nil => cases h1
      | cons c d' => exact ⟨c, d', rfl⟩
    rw [List.cons_append] at hm ⊢
    rw [scanM_cons_some _ _ _ _ _ _ hm, hquote]
    have hkp : (c :: d').length - 1 = d'.length := by simp
    rw [hkp, List.drop_left]

theorem C8_witness :
    ((fun _ => (none : Option (List Char))) ((tsEff "1234567890".toList : Nat) : Int) = none) ∧
    unix_timestamp_to_postgres (fun _ => none) "1234567890".toList =
      '\'' :: ("1234567890".toList ++ ['\'']) ∧
    scanM (tsM (fun _ => none)) none ("1234567890".toList ++ ",x".toList) =
      ('\'' :: ("1234567890".toList ++ ['\''])) ++
        scanM (tsM (fun _ => none))
          (("1234567890".toList ++ ",x".toList)["1234567890".toList.length - 1]?) ",x".toList :=
  ⟨rfl, C8_fallback_behaviour.1 _ _ rfl,
    C8_fallback_behaviour.2 _ none _ _ rfl rfl (by decide) (by decide) (by decide)
      (by
        intro c hc
        simp only [List.head?] at hc
        cases hc
        decide)
      rfl⟩

/-- C3 counterexample: the claim predicts a simultaneous rewrite of every
positionally bounded `0`/`1` (`boolClaimRewrite`), but the code's six
sequential non-overlapping passes differ from it: `(0)` is bounded by the
pair `(`/`)` yet no rule covers that pair, and in `,0,0,` the second `0`
overlaps the first match's closing comma and is left unchanged. -/
theorem C3_counterexample :
    boolPasses "(0)".toList = "(0)".toList ∧
    boolClaimRewrite "(0)".toList = "(FALSE)".toList ∧
    boolPasses ",0,0,".toList = ",FALSE,0,".toList ∧
    boolClaimRewrite ",0,0,".toList = ",FALSE,FALSE,".toList ∧
    ¬ boolPasses "(0)".toList = boolClaimRewrite "(0)".toList ∧
    ¬ boolPasses ",0,0,".toList = boolClaimRewrite ",0,0,".toList := by
  decide

theorem scanM_litM_id_of_noOcc (pat repl : List Char) (hp : pat ≠ [])
    (p : Option Char) (s : List Char) (h : hasOcc pat s = false) :
    scanM (litM pat repl) p s = s := by
  apply scanM_id_of_none
  intro q n _
  unfold litM
  rw [hasOcc_false_drop pat hp s h n]
  simp

/-- C3 (amended): the boolean rewrite is six sequential leftmost
non-overlapping literal replacements, applied in the order `,0,` `,1,`
`(0,` `(1,` `,0)` `,1)`.  A buffer containing none of the six patterns is
left unchanged; isolated occurrences bounded by the listed pairs are
replaced (`(1,0,5)` becomes `(TRUE,FALSE,5)`, `(10,21)` is untouched), but
a `0`/`1` bounded by `(`/`)` (as in `(0)`), or one sharing its opening
comma with the closing comma of the preceding same-digit match (as the
second `0` of `,0,0,`), is not replaced. -/
theorem C3_sequential_bool_rewrite :
    (∀ s, hasOcc ",0,".toList s = false → hasOcc ",1,".toList s = false →
          hasOcc "(0,".toList s = false → hasOcc "(1,".toList s = false →
          hasOcc ",0)".toList s = false → hasOcc ",1)".toList s = false →
          boolPasses s = s) ∧
    boolPasses "(1,0,5)".toList = "(TRUE,FALSE,5)".toList ∧
    boolPasses "(10,21)".toList = "(10,21)".toList ∧
    boolPasses ",0,0,".toList = ",FALSE,0,".toList ∧
    boolPasses "(0)".toList = "(0)".toList := by
  refine ⟨?_, by decide, by decide, by decide, by decide⟩
  intro s h1 h2 h3 h4 h5 h6
  show scanM _ none (scanM _ none (scanM _ none (scanM _ none (scanM _ none
    (scanM _ none s))))) = s
  rw [scanM_litM_id_of_noOcc _ _ (by decide) _ _ h1,
    scanM_litM_id_of_noOcc _ _ (by decide) _ _ h2,
    scanM_litM_id_of_noOcc _ _ (by decide) _ _ h3,
    scanM_litM_id_of_noOcc _ _ (by decide) _ _ h4,
    scanM_litM_id_of_noOcc _ _ (by decide) _ _ h5,
    scanM_litM_id_of_noOcc _ _ (by decide) _ _ h6]

theorem C3_witness :
    (hasOcc ",0,".toList "x = y".toList = false ∧
     hasOcc ",1,".toList "x = y".toList = false ∧
     hasOcc "(0,".toList "x = y".toList = false ∧
     hasOcc "(1,".toList "x = y".toList = false ∧
     hasOcc ",0)".toList "x = y".toList = false ∧
     hasOcc ",1)".toList "x = y".toList = false) ∧
    boolPasses "x = y".toList = "x = y".toList :=
  ⟨by decide, C3_sequential_bool_rewrite.1 _ (by decide) (by decide) (by decide)
    (by decide) (by decide) (by decide)⟩

theorem digCh_ne_nl (n : Nat) : ¬ digCh n = '\n' := by
  unfold digCh
  split <;> decide

theorem count_nl_fmtDT (dt : DT) : (fmtDT dt).count '\n' = 0 := by
  simp [fmtDT, pad2, pad4, List.count_append, List.count_cons, digCh_ne_nl]

theorem fmtDT_no_nl (dt : DT) : '\n' ∉ fmtDT dt :=
  List.count_eq_zero.mp (count_nl_fmtDT dt)

theorem splitNl_append_nl (a b : List Char) (ha : '\n' ∉ a) :
    splitNl (a ++ '\n' :: b) = a :: splitNl b := by
  induction a with
  | nil => simp [splitNl]
  | cons c a' ih =>
    have hc : ¬ c = '\n' := by
      intro h
      exact ha (by simp [h])
    simp only [List.cons_append, splitNl, if_neg hc, List.append_eq]
    rw [ih (fun h => ha (by simp [h]))]

theorem dropSecondLine_dataPreamble (n X : List Char) (hn : '\n' ∉ n) :
    dropSecondLine (dataPreamble n ++ X) =
      joinNl ("-- Data import for PostgreSQL (converted from SQLite)".toList ::
        splitNl (dataPreTail ++ X)) := by
  have hshape : dataPreamble n ++ X =
      "-- Data import for PostgreSQL (converted from SQLite)".toList ++
        '\n' :: (("-- Generated on ".toList ++ n) ++ '\n' :: (dataPreTail ++ X)) := by
    simp [dataPreamble, List.append_assoc]
  rw [dropSecondLine, hshape,
    splitNl_append_nl _ _ (by decide),
    splitNl_append_nl _ _ (by
      intro hmem
      rcases List.mem_append.mp hmem with h | h
      · revert h; decide
      · exact hn h)]
  simp [List.eraseIdx]

/-- C4 counterexample: the Data-Only Converter's output embeds the wall
clock (`-- Generated on`), so two runs on the same input at different
times produce different output file content. -/
theorem C4_counterexample :
    mainDataOnly (ftOf (fun _ => 0)) ⟨2024, 1, 1, 0, 0, 0⟩ "in.sql".toList "out.sql".toList
        "INSERT INTO t VALUES(2,3);".toList ≠
      mainDataOnly (ftOf (fun _ => 0)) ⟨2025, 6, 7, 8, 9, 10⟩ "in.sql".toList "out.sql".toList
        "INSERT INTO t VALUES(2,3);".toList := by
  decide

/-- C4 (amended): the Schema-and-Data Converter's whole run result is a
function of the input text alone; the Data-Only Converter's stdout and
exit code are too, and its output file content is a function of the input
up to the `-- Generated on` line: with that second line removed, any two
runs on the same input (same timezone) coincide. -/
theorem C4_determinism_amended :
    (∀ now₁ now₂ inF outF input,
      mainToPostgres now₁ inF outF input = mainToPostgres now₂ inF outF input) ∧
    (∀ (ft : Int → Option (List Char)) now₁ now₂ inF outF input,
      (mainDataOnly ft now₁ inF outF input).stdout =
        (mainDataOnly ft now₂ inF outF input).stdout ∧
      (mainDataOnly ft now₁ inF outF input).exitCode =
        (mainDataOnly ft now₂ inF outF input).exitCode ∧
      Option.map dropSecondLine (mainDataOnly ft now₁ inF outF input).written =
        Option.map dropSecondLine (mainDataOnly ft now₂ inF outF input).written) := by
  constructor
  · intro now₁ now₂ inF outF input
    rfl
  · intro ft now₁ now₂ inF outF input
    unfold mainDataOnly convert_sqlite_data_to_postgres
    cases h : ((splitNl input).filter isInsertLine).isEmpty with
    | true => simp [h]
    | false =>
      simp only [h, Bool.false_eq_true, if_false, Option.map_some']
      refine ⟨by trivial, by trivial, ?_⟩
      rw [dropSecondLine_dataPreamble _ _ (fmtDT_no_nl now₁),
        dropSecondLine_dataPreamble _ _ (fmtDT_no_nl now₂)]

/-- Head-match form of `scanM_cons_some` for a nonempty input. -/
theorem scanM_head_match (m : Matcher) (p : Option Char) (s r : List Char) (kp : Nat)
    (hs : s ≠ []) (h : m p s = some (r, kp)) :
    scanM m p s = r ++ scanM m (s[kp]?) (s.drop (kp + 1)) := by
  cases s with
  | nil => exact absurd rfl hs
  | cons c cs => exact scanM_cons_some _ _ _ _ _ _ h

theorem btM_none_not_bt (q : Option Char) (c : Char) (cs : List Char) (h : ¬ c = btChar) :
    btM q (c :: cs) = none := by
  unfold btM
  simp [h]

/-- The backtick rule fires on a backtick-quoted nonempty name. -/
theorem btM_head (q : Option Char) (nm post : List Char) (hnm : nm ≠ []) (hbt : btChar ∉ nm) :
    btM q (btChar :: (nm ++ btChar :: post)) = some ('"' :: (nm ++ ['"']), nm.length + 1) := by
  have htw : (nm ++ btChar :: post).takeWhile (neChar btChar) = nm := by
    rw [takeWhile_append_all _ _ _
      (fun c hc => by
        simp only [neChar, ne_eq, decide_not, Bool.not_eq_true', decide_eq_false_iff_not]
        intro hceq
        exact hbt (hceq ▸ hc)),
      List.takeWhile_cons_of_neg (by simp [neChar]), List.append_nil]
  have hie : nm.isEmpty = false := by
    cases nm with
    | nil => exact absurd rfl hnm
    | cons c nm' => rfl
  have hd : (nm ++ btChar :: post).drop nm.length = btChar :: post := List.drop_left _ _
  unfold btM
  simp [htw, hie, hd]

theorem length_eq_of_lowerList {w pat : List Char} (h : lowerList w = pat) :
    w.length = pat.length := by
  rw [← h, lowerList, List.length_map]

/-- A case-insensitive whole-word rule fires on any case variant `w` of its
pattern when the boundary conditions hold. -/
theorem wordCIM_head (pat repl : List Char) (p : Option Char) (w post : List Char)
    (hb : nbOk p = true) (hw : lowerList w = pat) (hne : w ≠ [])
    (hpost : ∀ c, post.head? = some c → wordChar c = false) :
    wordCIM pat repl p (w ++ post) = some (repl, pat.length - 1) := by
  have hlen := length_eq_of_lowerList hw
  have htake : (w ++ post).take pat.length = w := by
    rw [← hlen]
    exact List.take_left w post
  have hci : ciPrefixOf pat (w ++ post) = true := by
    unfold ciPrefixOf
    rw [htake, hw]
    exact isPrefixOf_eq_true_iff.mpr (List.prefix_refl pat)
  have hdrop : (w ++ post).drop pat.length = post := by
    rw [← hlen]
    exact List.drop_left w post
  have hpe : pat.isEmpty = false := by
    rw [← hw]
    cases w with
    | nil => exact absurd rfl hne
    | cons c w' => rfl
  have hposthead : post.head?.any wordChar = false := by
    cases post with
    | nil => rfl
    | cons c' cs' => simpa using hpost c' rfl
  unfold wordCIM
  rw [hdrop]
  simp [hb, hci, hpe, hposthead]

/-- C6: in the Schema-and-Data Converter, a backtick-quoted identifier
(nonempty, backtick-free) is re-emitted wrapped in double quotes by the
backtick rule, and a word-boundary-delimited case variant of
`INTEGER PRIMARY KEY AUTOINCREMENT` is replaced by `SERIAL PRIMARY KEY` by
the autoincrement rule; in both cases the pass continues on the rest. -/
theorem C6_quoting_and_autoincrement :
    (∀ pre nm post, btChar ∉ pre → nm ≠ [] → btChar ∉ nm →
       scanM btM none (pre ++ btChar :: (nm ++ btChar :: post)) =
         pre ++ '"' :: (nm ++ '"' :: scanM btM (some btChar) post)) ∧
    (∀ (p : Option Char) (w post : List Char), nbOk p = true → lowerList w = aiLit →
       (∀ c, post.head? = some c → wordChar c = false) →
       scanM (wordCIM aiLit "SERIAL PRIMARY KEY".toList) p (w ++ post) =
         "SERIAL PRIMARY KEY".toList ++
           scanM (wordCIM aiLit "SERIAL PRIMARY KEY".toList) ((w ++ post)[aiLit.length - 1]?) post) := by
  constructor
  · intro pre nm post hpre hnm hbt
    have happ := scanM_append btM none pre (btChar :: (nm ++ btChar :: post)) ?hnone
    case hnone =>
      intro q n hn
      rw [List.drop_append_of_le_length (le_of_lt hn),
        List.drop_eq_getElem_cons hn, List.cons_append]
      exact btM_none_not_bt _ _ _ (by
        intro hceq
        exact hpre (hceq ▸ List.getElem_mem hn))
    rw [happ, scanM_cons_some _ _ _ _ _ _ (btM_head _ nm post hnm hbt)]
    have hdrop : (nm ++ btChar :: post).drop (nm.length + 1) = post := by
      rw [List.drop_append_eq_append_drop]
      simp
    have hidx : (btChar :: (nm ++ btChar :: post))[nm.length + 1]? = some btChar := by
      simp only [List.getElem?_cons_succ]
      rw [List.getElem?_append_right le_rfl]
      simp
    rw [hdrop, hidx]
    simp
  · intro p w post hb hw hpost
    have hne : w ≠ [] := by
      intro h
      rw [h] at hw
      exact absurd hw.symm (by decide)
    have hm := wordCIM_head aiLit "SERIAL PRIMARY KEY".toList p w post hb hw hne hpost
    have hlen := length_eq_of_lowerList hw
    rw [scanM_head_match _ _ _ _ _ (by simp [hne]) hm]
    have hd : (w ++ post).drop (aiLit.length - 1 + 1) = post := by
      have h33 : aiLit.length - 1 + 1 = w.length := by
        rw [hlen]
        decide
      rw [h33]
      exact List.drop_left w post
    rw [hd]

theorem C6_witness :
    ((btChar ∉ "x ".toList ∧ "users".toList ≠ [] ∧ btChar ∉ "users".toList) ∧
      scanM btM none ("x ".toList ++ btChar :: ("users".toList ++ btChar :: " y".toList)) =
        "x ".toList ++ '"' :: ("users".toList ++ '"' :: scanM btM (some btChar) " y".toList)) ∧
    ((nbOk none = true ∧ lowerList "Integer Primary Key AutoIncrement".toList = aiLit) ∧
      scanM (wordCIM aiLit "SERIAL PRIMARY KEY".toList) none
          ("Integer Primary Key AutoIncrement".toList ++ ");".toList) =
        "SERIAL PRIMARY KEY".toList ++
          scanM (wordCIM aiLit "SERIAL PRIMARY KEY".toList)
            (("Integer Primary Key AutoIncrement".toList ++ ");".toList)[aiLit.length - 1]?) ");".toList) :=
  ⟨⟨⟨by decide, by decide, by decide⟩,
    C6_quoting_and_autoincrement.1 _ _ _ (by decide) (by decide) (by decide)⟩,
   ⟨⟨rfl, by decide⟩,
    C6_quoting_and_autoincrement.2 none _ _ rfl (by decide)
      (by
        intro c hc
        simp only [List.head?] at hc
        cases hc
        decide)⟩⟩

/-- The foreign-key rule fires on `REFERENCES tbl(col)` where `tbl` is the
maximal `(`-free run after the keyword and `col` the maximal `)`-free run. -/
theorem refM_head (q : Option Char) (tbl col post : List Char)
    (htbl : tbl ≠ []) (htblp : '(' ∉ tbl) (hcol : col ≠ []) (hcolp : ')' ∉ col) :
    refM q (refLit ++ (tbl ++ '(' :: (col ++ ')' :: post))) =
      some (refLit ++ '"' :: (tbl ++ '"' :: '(' :: '"' :: (col ++ ['"', ')'])),
        12 + tbl.length + col.length) := by
  have hpre : refLit.isPrefixOf (refLit ++ (tbl ++ '(' :: (col ++ ')' :: post))) = true :=
    isPrefixOf_eq_true_iff.mpr ⟨_, rfl⟩
  have hd11 : (refLit ++ (tbl ++ '(' :: (col ++ ')' :: post))).drop 11 =
      tbl ++ '(' :: (col ++ ')' :: post) := by
    rw [show (11 : Nat) = refLit.length from rfl]
    exact List.drop_left _ _
  have htw1 : (tbl ++ '(' :: (col ++ ')' :: post)).takeWhile (neChar '(') = tbl := by
    rw [takeWhile_append_all _ _ _
      (fun c hc => by
        simp only [neChar, ne_eq, decide_not, Bool.not_eq_true', decide_eq_false_iff_not]
        intro hceq
        exact htblp (hceq ▸ hc)),
      List.takeWhile_cons_of_neg (by simp [neChar]), List.append_nil]
  have htbl_ie : tbl.isEmpty = false := by
    cases tbl with
    | nil => exact absurd rfl htbl
    | cons c t => rfl
  have hdtbl : (refLit ++ (tbl ++ '(' :: (col ++ ')' :: post))).drop (11 + tbl.length) =
      '(' :: (col ++ ')' :: post) := by
    have hsplit : (refLit ++ (tbl ++ '(' :: (col ++ ')' :: post))).drop (11 + tbl.length) =
        ((refLit ++ (tbl ++ '(' :: (col ++ ')' :: post))).drop 11).drop tbl.length := by
      rw [List.drop_drop]
    rw [hsplit, hd11]
    exact List.drop_left _ _
  have htw2 : (col ++ ')' :: post).takeWhile (neChar ')') = col := by
    rw [takeWhile_append_all _ _ _
      (fun c hc => by
        simp only [neChar, ne_eq, decide_not, Bool.not_eq_true', decide_eq_false_iff_not]
        intro hceq
        exact hcolp (hceq ▸ hc)),
      List.takeWhile_cons_of_neg (by simp [neChar]), List.append_nil]
  have hcol_ie : col.isEmpty = false := by
    cases col with
    | nil => exact absurd rfl hcol
    | cons c t => rfl
  have hdcol : (col ++ ')' :: post).drop col.length = ')' :: post := List.drop_left _ _
  unfold refM
  simp [hpre, hd11, htw1, htbl_ie, hdtbl, htw2, hcol_ie, hdcol]

/-- C7 counterexample: on a buffer whose foreign-key clause already carries
double-quoted names (as the backtick rule produces), the REFERENCES rule
wraps the quoted text again, yielding two layers of quotes, not one; the
full converter shows the same on a dump with backtick-quoted references. -/
theorem C7_counterexample :
    scanM refM none "REFERENCES \"t\"(\"c\")".toList =
      "REFERENCES \"\"t\"\"(\"\"c\"\")".toList ∧
    hasOcc ['"', '"'] (scanM refM none "REFERENCES \"t\"(\"c\")".toList) = true ∧
    hasOcc ['"', '"']
      (convert_sqlite_to_postgres "CREATE TABLE a (x integer REFERENCES `t`(`c`));".toList) = true ∧
    ¬ ∃ t c : List Char, '"' ∉ t ∧ '"' ∉ c ∧
        scanM refM none "REFERENCES \"t\"(\"c\")".toList =
          "REFERENCES \"".toList ++ (t ++ ("\"(\"".toList ++ (c ++ "\")".toList))) := by
  refine ⟨by decide, by decide, by decide, ?_⟩
  rintro ⟨t, c, ht, hc, heq⟩
  have hsplitc : scanM refM none "REFERENCES \"t\"(\"c\")".toList =
      "REFERENCES \"".toList ++ ['"', 't', '"', '"', '(', '"', '"', 'c', '"', '"', ')'] := by
    decide
  rw [hsplitc] at heq
  have heq' : ['"', 't', '"', '"', '(', '"', '"', 'c', '"', '"', ')'] =
      t ++ ("\"(\"".toList ++ (c ++ "\")".toList)) :=
    List.append_cancel_left heq
  cases t with
  | nil => simp at heq'
  | cons x t' =>
    have hx : x = '"' := by
      have hh := congrArg List.head? heq'
      simpa using hh.symm
    subst hx
    exact ht (List.mem_cons_self _ _)

/-- C7 (amended): the REFERENCES rule wraps the matched table text (the
maximal `(`-free run after `REFERENCES `) and the matched column text (the
maximal `)`-free run inside the parentheses) each in one added pair of
double quotes; when the names carry no double quote themselves, each ends
up delimited by exactly one layer, and the pass continues on the rest. -/
theorem C7_references_amended (tbl col post : List Char)
    (htbl : tbl ≠ []) (htblp : '(' ∉ tbl) (htblq : '"' ∉ tbl)
    (hcol : col ≠ []) (hcolp : ')' ∉ col) (hcolq : '"' ∉ col) :
    scanM refM none (refLit ++ (tbl ++ '(' :: (col ++ ')' :: post))) =
      refLit ++ '"' :: (tbl ++ '"' :: '(' :: '"' ::
        (col ++ '"' :: ')' :: scanM refM (some ')') post)) := by
  have hassoc : refLit ++ (tbl ++ '(' :: (col ++ ')' :: post)) =
      (refLit ++ (tbl ++ '(' :: col)) ++ ')' :: post := by
    simp
  have hlenP : (refLit ++ (tbl ++ '(' :: col)).length = 12 + tbl.length + col.length := by
    simp only [List.length_append, List.length_cons, show refLit.length = 11 from rfl]
    omega
  have hdropP : (refLit ++ (tbl ++ '(' :: (col ++ ')' :: post))).drop
      (12 + tbl.length + col.length) = ')' :: post := by
    rw [hassoc, ← hlenP, List.drop_left]
  have hd : (refLit ++ (tbl ++ '(' :: (col ++ ')' :: post))).drop
      (12 + tbl.length + col.length + 1) = post := by
    rw [← List.drop_drop, hdropP]
    rfl
  have hidx : (refLit ++ (tbl ++ '(' :: (col ++ ')' :: post)))[12 + tbl.length + col.length]? =
      some ')' := by
    rw [hassoc, List.getElem?_append_right (le_of_eq hlenP), hlenP]
    simp
  have hne : refLit ++ (tbl ++ '(' :: (col ++ ')' :: post)) ≠ [] := by
    rw [hassoc]
    simp
  rw [scanM_head_match refM none _ _ _ hne (refM_head none tbl col post htbl htblp hcol hcolp),
    hidx, hd]
  simp

theorem C7_witness :
    ("users".toList ≠ [] ∧ '(' ∉ "users".toList ∧ '"' ∉ "users".toList ∧
     "id".toList ≠ [] ∧ ')' ∉ "id".toList ∧ '"' ∉ "id".toList) ∧
    scanM refM none (refLit ++ ("users".toList ++ '(' :: ("id".toList ++ ')' :: ";".toList))) =
      refLit ++ '"' :: ("users".toList ++ '"' :: '(' :: '"' ::
        ("id".toList ++ '"' :: ')' :: scanM refM (some ')') ";".toList)) :=
  ⟨⟨by decide, by decide, by decide, by decide, by decide, by decide⟩,
   C7_references_amended _ _ _ (by decide) (by decide) (by decide) (by decide) (by decide)
     (by decide)⟩

/-- Shape check for `YYYY-MM-DD HH:MM:SS`. -/
def tsShape (s : List Char) : Bool :=
  match s with
  | [y1, y2, y3, y4, e1, m1, m2, e2, d1, d2, e3, h1, h2, e4, i1, i2, e5, s1, s2] =>
    y1.isDigit && y2.isDigit && y3.isDigit && y4.isDigit && e1 = '-' &&
    m1.isDigit && m2.isDigit && e2 = '-' && d1.isDigit && d2.isDigit &&
    e3 = ' ' && h1.isDigit && h2.isDigit && e4 = ':' && i1.isDigit && i2.isDigit &&
    e5 = ':' && s1.isDigit && s2.isDigit
  | _ => false

theorem digCh_isDigit (n : Nat) : (digCh n).isDigit = true := by
  unfold digCh
  split <;> decide

theorem tsShape_fmtDT (dt : DT) : tsShape (fmtDT dt) = true := by
  simp [fmtDT, pad2, pad4, tsShape, digCh_isDigit]

theorem parseDecAux (a : Nat) (l : List Char) :
    List.foldl (fun a c => a * 10 + (c.toNat - 48)) a l =
      a * 10 ^ l.length + List.foldl (fun a c => a * 10 + (c.toNat - 48)) 0 l := by
  induction l generalizing a with
  | nil => simp
  | cons c l ih =>
    simp only [List.foldl_cons, List.length_cons]
    rw [ih (a * 10 + (c.toNat - 48)), ih (0 * 10 + (c.toNat - 48))]
    rw [pow_succ]
    ring_nf
    omega

theorem digit_toNat_le (c : Char) (h : c.isDigit = true) : c.toNat ≤ 57 := by
  simp [Char.isDigit] at h
  exact h.2

theorem parseDec_lt (d : List Char) (hd : ∀ c ∈ d, c.isDigit = true) :
    parseDec d < 10 ^ d.length := by
  induction d with
  | nil => simp [parseDec]
  | cons c l ih =>
    have hc := digit_toNat_le c (hd c (by simp))
    have hl := ih (fun x hx => hd x (by simp [hx]))
    unfold parseDec at hl ⊢
    simp only [List.foldl_cons, List.length_cons]
    rw [parseDecAux]
    have hv : c.toNat - 48 ≤ 9 := by omega
    have h10 : (0 * 10 + (c.toNat - 48)) * 10 ^ l.length ≤ 9 * 10 ^ l.length := by
      apply Nat.mul_le_mul_right
      omega
    rw [pow_succ]
    have hpos : 0 < 10 ^ l.length := Nat.pos_pow_of_pos _ (by omega)
    omega

theorem parseDec_ge (d' : List Char) :
    10 ^ d'.length ≤ parseDec ('1' :: d') := by
  unfold parseDec
  simp only [List.foldl_cons]
  rw [parseDecAux]
  have h1 : ('1'.toNat - 48) = 1 := rfl
  simp [h1]

/-- The effective value of a 10..13-digit match starting with `1` lies in
`[10^7, 10^10]`: every such value is representable as a calendar date. -/
theorem tsEff_bounds (d : List Char) (h1 : d.head? = some '1')
    (hd : ∀ c ∈ d, c.isDigit = true) (hlen10 : 10 ≤ d.length) (hlen13 : d.length ≤ 13) :
    10000000 ≤ tsEff d ∧ tsEff d ≤ 10000000000 := by
  obtain ⟨c, d', rfl⟩ : ∃ c d', d = c :: d' := by
    cases d with
    | nil => cases h1
    | cons c d' => exact ⟨c, d', rfl⟩
  have hc : c = '1' := by simpa using h1
  subst hc
  have hlo := parseDec_ge d'
  have hhi := parseDec_lt ('1' :: d') hd
  simp only [List.length_cons] at hhi hlen10 hlen13
  have hlen : 9 ≤ d'.length ∧ d'.length ≤ 12 := by omega
  have hlo' : 10 ^ 9 ≤ parseDec ('1' :: d') := by
    calc 10 ^ 9 ≤ 10 ^ d'.length := Nat.pow_le_pow_right (by omega) hlen.1
    _ ≤ parseDec ('1' :: d') := hlo
  have hhi' : parseDec ('1' :: d') < 10 ^ 13 := by
    calc parseDec ('1' :: d') < 10 ^ (d'.length + 1) := hhi
    _ ≤ 10 ^ 13 := Nat.pow_le_pow_right (by omega) (by omega)
  simp only [tsEff]
  split
  case isTrue h => constructor <;> omega
  case isFalse h => constructor <;> omega

/-- The timestamp pass replaces a word-boundary-delimited 10..13-digit
match starting with `1` by the callback's output and continues. -/
theorem tsPass_head (ft : Int → Option (List Char)) (p : Option Char) (d post : List Char)
    (hb : nbOk p = true) (h1 : d.head? = some '1')
    (hd : ∀ c ∈ d, c.isDigit = true) (hlen10 : 10 ≤ d.length) (hlen13 : d.length ≤ 13)
    (hpost : ∀ c, post.head? = some c → wordChar c = false) :
    scanM (tsM ft) p (d ++ post) =
      unix_timestamp_to_postgres ft d ++
        scanM (tsM ft) ((d ++ post)[d.length - 1]?) post := by
  have hm := tsM_head_match ft p d post hb h1 hd hlen10 hlen13 hpost
  obtain ⟨c, d', rfl⟩ : ∃ c d', d = c :: d' := by
    cases d with
    | nil => cases h1
    | cons c d' => exact ⟨c, d', rfl⟩
  rw [List.cons_append] at hm ⊢
  rw [scanM_cons_some _ _ _ _ _ _ hm]
  have hkp : (c :: d').length - 1 = d'.length := by simp
  rw [hkp, List.drop_left]

/-- C2: every word-boundary-delimited 10..13-digit sequence starting with
`1` is replaced by the callback's output and the pass continues (first
conjunct); for the local-calendar model with a timezone offset of at most
18 hours, that output is a single-quoted `YYYY-MM-DD HH:MM:SS` rendering of
the effective value — the parsed integer, divided by 1000 with truncation
when above `1e10` — as a local calendar time (second conjunct); and the
inputs `1609459200` and `1609459200000` yield identical pass output (third
conjunct). -/
theorem C2_timestamp_conversion :
    (∀ (ft : Int → Option (List Char)) (p : Option Char) (d post : List Char),
       nbOk p = true → d.head? = some '1' → (∀ c ∈ d, c.isDigit = true) →
       10 ≤ d.length → d.length ≤ 13 →
       (∀ c, post.head? = some c → wordChar c = false) →
       scanM (tsM ft) p (d ++ post) =
         unix_timestamp_to_postgres ft d ++
           scanM (tsM ft) ((d ++ post)[d.length - 1]?) post) ∧
    (∀ (tz : Int → Int) (d : List Char), (∀ t, (tz t).natAbs ≤ 64800) →
       d.head? = some '1' → (∀ c ∈ d, c.isDigit = true) →
       10 ≤ d.length → d.length ≤ 13 →
       unix_timestamp_to_postgres (ftOf tz) d =
         '\'' :: (fmtDT (civilFromSecs ((tsEff d + tz (tsEff d)).toNat)) ++ ['\'']) ∧
       tsShape (fmtDT (civilFromSecs ((tsEff d + tz (tsEff d)).toNat))) = true) ∧
    (∀ tz : Int → Int, (∀ t, (tz t).natAbs ≤ 64800) →
       scanM (tsM (ftOf tz)) none "1609459200".toList =
         scanM (tsM (ftOf tz)) none "1609459200000".toList) := by
  refine ⟨tsPass_head, ?_, ?_⟩
  · intro tz d htz h1 hd hlen10 hlen13
    obtain ⟨hlo, hhi⟩ := tsEff_bounds d h1 hd hlen10 hlen13
    have htzd := htz (tsEff d)
    have hguard : 0 ≤ (tsEff d : Int) + tz (tsEff d) ∧
        (tsEff d : Int) + tz (tsEff d) ≤ 253402300799 := by omega
    have hsome : ftOf tz (tsEff d) = some (fmtDT (civilFromSecs ((tsEff d + tz (tsEff d)).toNat))) := by
      unfold ftOf
      rw [if_pos hguard]
    refine ⟨?_, tsShape_fmtDT _⟩
    unfold unix_timestamp_to_postgres
    rw [hsome]
  · intro tz htz
    have h10 : tsEff "1609459200".toList = 1609459200 := by decide
    have h13 : tsEff "1609459200000".toList = 1609459200 := by decide
    have htzd := htz 1609459200
    have hguard : 0 ≤ (1609459200 : Int) + tz 1609459200 ∧
        (1609459200 : Int) + tz 1609459200 ≤ 253402300799 := by omega
    have hsome : ftOf tz 1609459200 =
        some (fmtDT (civilFromSecs (((1609459200 : Int) + tz 1609459200).toNat))) := by
      unfold ftOf
      rw [if_pos hguard]
    have e10 : scanM (tsM (ftOf tz)) none "1609459200".toList =
        unix_timestamp_to_postgres (ftOf tz) "1609459200".toList ++
          scanM (tsM (ftOf tz)) (("1609459200".toList ++ ([] : List Char))["1609459200".toList.length - 1]?) [] := by
      have := tsPass_head (ftOf tz) none "1609459200".toList [] rfl rfl
        (by decide) (by decide) (by decide) (by intro c hc; cases hc)
      simpa using this
    have e13 : scanM (tsM (ftOf tz)) none "1609459200000".toList =
        unix_timestamp_to_postgres (ftOf tz) "1609459200000".toList ++
          scanM (tsM (ftOf tz)) (("1609459200000".toList ++ ([] : List Char))["1609459200000".toList.length - 1]?) [] := by
      have := tsPass_head (ftOf tz) none "1609459200000".toList [] rfl rfl
        (by decide) (by decide) (by decide) (by intro c hc; cases hc)
      simpa using this
    rw [e10, e13, scanM_nil, scanM_nil]
    unfold unix_timestamp_to_postgres
    rw [h10, h13]
    simp only [Nat.cast_ofNat]
    rw [hsome]

theorem C2_witness :
    (scanM (tsM (ftOf (fun _ => 0))) none ("1609459200".toList ++ ",5)".toList) =
      unix_timestamp_to_postgres (ftOf (fun _ => 0)) "1609459200".toList ++
        scanM (tsM (ftOf (fun _ => 0)))
          (("1609459200".toList ++ ",5)".toList)["1609459200".toList.length - 1]?) ",5)".toList) ∧
    (unix_timestamp_to_postgres (ftOf (fun _ => 0)) "1609459200".toList =
      '\'' :: (fmtDT (civilFromSecs (((tsEff "1609459200".toList : Int) + (0 : Int)).toNat)) ++ ['\'']) ∧
     tsShape (fmtDT (civilFromSecs (((tsEff "1609459200".toList : Int) + (0 : Int)).toNat))) = true) ∧
    scanM (tsM (ftOf (fun _ => 0))) none "1609459200".toList =
      scanM (tsM (ftOf (fun _ => 0))) none "1609459200000".toList :=
  ⟨C2_timestamp_conversion.1 _ none _ _ rfl rfl (by decide) (by decide) (by decide)
     (by
       intro c hc
       simp only [List.head?] at hc
       cases hc
       decide),
   C2_timestamp_conversion.2.1 (fun _ => 0) _ (fun t => by simp) rfl (by decide) (by decide)
     (by decide),
   C2_timestamp_conversion.2.2 (fun _ => 0) (fun t => by simp)⟩

theorem take_takeWhile_len (q : Char → Bool) (l : List Char) :
    l.take (l.takeWhile q).length = l.takeWhile q := by
  induction l with
  | nil => rfl
  | cons c cs ih =>
    cases hq : q c with
    | true => simp [List.takeWhile_cons_of_pos hq, ih]
    | false =>
      have hq' : ¬ q c = true := by simp [hq]
      simp [List.takeWhile_cons_of_neg hq']

theorem drop_takeWhile_len (q : Char → Bool) (l : List Char) :
    l.drop (l.takeWhile q).length = l.dropWhile q := by
  induction l with
  | nil => rfl
  | cons c cs ih =>
    cases hq : q c with
    | true => simp [List.takeWhile_cons_of_pos hq, List.dropWhile_cons_of_pos hq, ih]
    | false =>
      have hq' : ¬ q c = true := by simp [hq]
      simp [List.takeWhile_cons_of_neg hq', List.dropWhile_cons_of_neg hq']

theorem count_nl_scan_litM (pat repl : List Char) (hcnt : repl.count '\n' = pat.count '\n')
    (p : Option Char) (s : List Char) :
    (scanM (litM pat repl) p s).count '\n' = s.count '\n' := by
  apply scanM_count
  intro q c cs r kp h
  unfold litM at h
  split at h
  case isFalse => cases h
  case isTrue hcond =>
    simp only [Option.some.injEq, Prod.mk.injEq] at h
    simp only [Bool.and_eq_true, Bool.not_eq_true'] at hcond
    obtain ⟨hpre, hne⟩ := hcond
    obtain ⟨hr, hkp⟩ := h
    have hlen : pat.length ≠ 0 := by
      intro h0
      rw [List.length_eq_zero.mp h0] at hne
      simp at hne
    have hk1 : kp + 1 = pat.length := by omega
    rw [← hr, hk1, take_of_isPrefixOf hpre]
    exact hcnt

theorem count_nl_scan_insM (p : Option Char) (s : List Char) :
    (scanM insM p s).count '\n' = s.count '\n' := by
  apply scanM_count
  intro q c cs r kp h
  unfold insM at h
  split at h
  case isFalse => cases h
  case isTrue hpre =>
    dsimp only at h
    split at h
    case isTrue => cases h
    case isFalse hne =>
      simp only [Option.some.injEq, Prod.mk.injEq] at h
      obtain ⟨hr, hkp⟩ := h
      obtain ⟨rest, hrest⟩ := isPrefixOf_eq_true_iff.mp hpre
      have hdrop : (c :: cs).drop 12 = rest := by
        rw [← hrest, show (12 : Nat) = insLit.length from rfl]
        exact List.drop_left _ _
      have hs2 : (insLit ++ rest.takeWhile nameChar) ++ rest.dropWhile nameChar = c :: cs := by
        rw [List.append_assoc, List.takeWhile_append_dropWhile, hrest]
      have htake : (c :: cs).take (kp + 1) = insLit ++ rest.takeWhile nameChar := by
        rw [← hs2]
        apply List.take_left'
        simp only [List.length_append, show insLit.length = 12 from rfl]
        rw [hdrop] at hkp
        omega
      rw [htake, ← hr, hdrop]
      simp [List.count_append, List.count_cons]

theorem digit_ne_nl (c : Char) (h : c.isDigit = true) : ¬ c = '\n' := by
  intro hc
  rw [hc] at h
  cases h

theorem count_nl_digits (ds : List Char) (hds : ∀ c ∈ ds, c.isDigit = true) :
    ds.count '\n' = 0 :=
  List.count_eq_zero.mpr (fun hm => digit_ne_nl '\n' (hds _ hm) rfl)

theorem count_nl_utp_ftOf (tz : Int → Int) (ds : List Char)
    (hds : ∀ c ∈ ds, c.isDigit = true) :
    (unix_timestamp_to_postgres (ftOf tz) ds).count '\n' = 0 := by
  unfold unix_timestamp_to_postgres
  cases hft : ftOf tz ((tsEff ds : Nat) : Int) with
  | some f =>
    have hf : ∃ dt, f = fmtDT dt := by
      simp only [ftOf] at hft
      split at hft
      · exact ⟨_, ((Option.some.injEq _ _).mp hft).symm⟩
      · cases hft
    obtain ⟨dt, rfl⟩ := hf
    simp [List.count_append, List.count_cons, count_nl_fmtDT]
  | none =>
    simp [List.count_append, List.count_cons, count_nl_digits ds hds]

theorem count_nl_scan_tsM (tz : Int → Int) (p : Option Char) (s : List Char) :
    (scanM (tsM (ftOf tz)) p s).count '\n' = s.count '\n' := by
  apply scanM_count
  intro q c cs r kp h
  unfold tsM at h
  split at h
  case isFalse => cases h
  case isTrue hb =>
    simp only [List.head?_cons] at h
    split at h
    case isFalse => cases h
    case isTrue hc1 =>
      split at h
      case isFalse => cases h
      case isTrue hcond =>
        simp only [Option.some.injEq, Prod.mk.injEq] at h
        obtain ⟨hr, hkp⟩ := h
        simp only [Bool.and_eq_true, decide_eq_true_eq] at hcond
        have hlen : 10 ≤ ((c :: cs).takeWhile Char.isDigit).length := hcond.1.1
        have hk1 : kp + 1 = ((c :: cs).takeWhile Char.isDigit).length := by omega
        have hdigits : ∀ x ∈ (c :: cs).takeWhile Char.isDigit, x.isDigit = true :=
          fun x hx => List.mem_takeWhile_imp hx
        rw [hk1, take_takeWhile_len, ← hr,
          count_nl_utp_ftOf tz _ hdigits, count_nl_digits _ hdigits]

theorem count_nl_scan_ddqM (p : Option Char) (s : List Char) :
    (scanM ddqM p s).count '\n' = s.count '\n' := by
  apply scanM_count
  intro q c cs r kp h
  unfold ddqM at h
  split at h
  case h_2 => cases h
  case h_1 rest heq =>
    rw [heq]
    dsimp only at h
    split at h
    case isTrue => cases h
    case isFalse hne =>
      split at h
      case isFalse => cases h
      case isTrue hnext =>
        simp only [Option.some.injEq, Prod.mk.injEq] at h
        obtain ⟨hr, hkp⟩ := h
        obtain ⟨rest3, hrest3⟩ := isPrefixOf_eq_true_iff.mp hnext
        have hdw : rest.drop (rest.takeWhile (neChar '"')).length =
            rest.dropWhile (neChar '"') := drop_takeWhile_len _ _
        have hsplit : rest = rest.takeWhile (neChar '"') ++ ('"' :: '"' :: rest3) := by
          conv_lhs => rw [← List.takeWhile_append_dropWhile (p := neChar '"') (l := rest)]
          congr 1
          rw [← hdw, ← hrest3]
          rfl
        have hs2 : ('"' :: '"' :: rest) =
            ('"' :: '"' :: (rest.takeWhile (neChar '"') ++ ['"', '"'])) ++ rest3 := by
          conv_lhs => rw [hsplit]
          simp
        have htake : ('"' :: '"' :: rest).take (kp + 1) =
            '"' :: '"' :: (rest.takeWhile (neChar '"') ++ ['"', '"']) := by
          rw [hs2]
          apply List.take_left'
          simp
          omega
        rw [htake, ← hr]
        simp [List.count_append, List.count_cons]

theorem splitNl_ne_nil (s : List Char) : splitNl s ≠ [] := by
  induction s with
  | nil => simp [splitNl]
  | cons c cs ih =>
    unfold splitNl
    split
    · simp
    · cases hsp : splitNl cs with
      | nil => simp
      | cons t ts => simp

theorem length_splitNl (s : List Char) : (splitNl s).length = s.count '\n' + 1 := by
  induction s with
  | nil => simp [splitNl]
  | cons c cs ih =>
    unfold splitNl
    split
    case isTrue hc =>
      subst hc
      simp [List.count_cons, ih]
    case isFalse hc =>
      cases hsp : splitNl cs with
      | nil => exact absurd hsp (splitNl_ne_nil cs)
      | cons t ts =>
        rw [hsp] at ih
        simp only [List.length_cons] at ih ⊢
        rw [List.count_cons]
        simp only [beq_iff_eq]
        rw [if_neg (fun hcc => hc hcc)]
        omega

theorem no_nl_mem_splitNl (s : List Char) : ∀ l ∈ splitNl s, '\n' ∉ l := by
  induction s with
  | nil =>
    intro l hl
    simp only [splitNl, List.mem_singleton] at hl
    subst hl
    simp
  | cons c cs ih =>
    intro l hl
    unfold splitNl at hl
    split at hl
    case isTrue hc =>
      rcases List.mem_cons.mp hl with rfl | hl'
      · simp
      · exact ih l hl'
    case isFalse hc =>
      cases hsp : splitNl cs with
      | nil => exact absurd hsp (splitNl_ne_nil cs)
      | cons t ts =>
        rw [hsp] at hl
        rcases List.mem_cons.mp hl with rfl | hl'
        · intro hmem
          rcases List.mem_cons.mp hmem with h1 | h2
          · exact hc h1.symm
          · exact ih t (hsp ▸ List.mem_cons_self t ts) h2
        · exact ih l (hsp ▸ List.mem_cons.mpr (Or.inr hl'))

theorem count_nl_joinNl (ls : List (List Char)) (hls : ∀ l ∈ ls, '\n' ∉ l) (hne : ls ≠ []) :
    (joinNl ls).count '\n' = ls.length - 1 := by
  induction ls with
  | nil => exact absurd rfl hne
  | cons l ls2 ih =>
    cases ls2 with
    | nil =>
      show l.count '\n' = 0
      exact List.count_eq_zero.mpr (hls l (by simp))
    | cons l2 ls3 =>
      have h0 : l.count '\n' = 0 := List.count_eq_zero.mpr (hls l (by simp))
      have ihv := ih (fun x hx => hls x (by simp [hx])) (by simp)
      show (l ++ '\n' :: joinNl (l2 :: ls3)).count '\n' = (l :: l2 :: ls3).length - 1
      rw [List.count_append, h0, List.count_cons_self, ihv]
      simp

theorem count_nl_dataPasses (tz : Int → Int) (s : List Char) :
    (dataPasses (ftOf tz) s).count '\n' = s.count '\n' := by
  simp only [dataPasses, boolPasses]
  rw [count_nl_scan_ddqM, count_nl_scan_litM _ _ (by decide),
    count_nl_scan_litM _ _ (by decide), count_nl_scan_litM _ _ (by decide),
    count_nl_scan_litM _ _ (by decide), count_nl_scan_litM _ _ (by decide),
    count_nl_scan_litM _ _ (by decide), count_nl_scan_litM _ _ (by decide),
    count_nl_scan_tsM, count_nl_scan_insM]

/-- C1: with at least one INSERT line, the data-only converter writes the
preamble, a body, and the postamble; the body has exactly one line per
retained INSERT line (same count, hence same relative order of the
surviving lines), and it is a function of the retained INSERT lines alone,
so no non-matching input line contributes to it. -/
theorem C1_insert_extraction (tz : Int → Int) (now : DT) (inFile outFile input : List Char)
    (h : (splitNl input).filter isInsertLine ≠ []) :
    (convert_sqlite_data_to_postgres (ftOf tz) now inFile outFile input).1 =
      some (dataPreamble (fmtDT now) ++
        (dataPasses (ftOf tz) (joinNl ((splitNl input).filter isInsertLine)) ++ dataPostamble)) ∧
    (splitNl (dataPasses (ftOf tz) (joinNl ((splitNl input).filter isInsertLine)))).length =
      ((splitNl input).filter isInsertLine).length ∧
    (∀ input₂, (splitNl input₂).filter isInsertLine = (splitNl input).filter isInsertLine →
      dataPasses (ftOf tz) (joinNl ((splitNl input₂).filter isInsertLine)) =
        dataPasses (ftOf tz) (joinNl ((splitNl input).filter isInsertLine))) := by
  have hie : ((splitNl input).filter isInsertLine).isEmpty = false := by
    cases hins : (splitNl input).filter isInsertLine with
    | nil => exact absurd hins h
    | cons a as => rfl
  refine ⟨?_, ?_, ?_⟩
  · simp only [convert_sqlite_data_to_postgres, hie, Bool.false_eq_true, if_false]
  · have hnl : ∀ l ∈ (splitNl input).filter isInsertLine, '\n' ∉ l :=
      fun l hl => no_nl_mem_splitNl input l (List.mem_of_mem_filter hl)
    have hlen : 0 < ((splitNl input).filter isInsertLine).length := List.length_pos.mpr h
    rw [length_splitNl, count_nl_dataPasses, count_nl_joinNl _ hnl h]
    omega
  · intro input₂ heq
    rw [heq]

theorem C1_witness :
    ((splitNl "INSERT INTO a VALUES(1);\nCREATE TABLE x;\nINSERT INTO b VALUES(2);".toList).filter
        isInsertLine ≠ []) ∧
    (convert_sqlite_data_to_postgres (ftOf (fun _ => 0)) ⟨2024, 1, 1, 0, 0, 0⟩ [] []
        "INSERT INTO a VALUES(1);\nCREATE TABLE x;\nINSERT INTO b VALUES(2);".toList).1 =
      some (dataPreamble (fmtDT ⟨2024, 1, 1, 0, 0, 0⟩) ++
        (dataPasses (ftOf (fun _ => 0))
          (joinNl ((splitNl "INSERT INTO a VALUES(1);\nCREATE TABLE x;\nINSERT INTO b VALUES(2);".toList).filter
            isInsertLine)) ++ dataPostamble)) ∧
    (splitNl (dataPasses (ftOf (fun _ => 0))
        (joinNl ((splitNl "INSERT INTO a VALUES(1);\nCREATE TABLE x;\nINSERT INTO b VALUES(2);".toList).filter
          isInsertLine)))).length =
      ((splitNl "INSERT INTO a VALUES(1);\nCREATE TABLE x;\nINSERT INTO b VALUES(2);".toList).filter
        isInsertLine).length :=
  ⟨by decide,
   (C1_insert_extraction (fun _ => 0) ⟨2024, 1, 1, 0, 0, 0⟩ [] [] _ (by decide)).1,
   (C1_insert_extraction (fun _ => 0) ⟨2024, 1, 1, 0, 0, 0⟩ [] [] _ (by decide)).2.1⟩

/-! ## C10: idempotence of the table-name quoting pass -/

/-- No position of the output admits a match of the table-name rule. -/
def NoIns (s : List Char) : Prop := ∀ n, insM none (s.drop n) = none

theorem insM_prev_irrel (q : Option Char) (s : List Char) : insM q s = insM none s := rfl

theorem getElem?_of_isPrefix {l₁ l₂ : List Char} (h : l₁ <+: l₂) {i : Nat}
    (hi : i < l₁.length) : l₂[i]? = l₁[i]? := by
  obtain ⟨t, rfl⟩ := h
  exact List.getElem?_append_left hi

theorem insLit_no_quote : ∀ k, k < 12 → ¬ insLit[k]? = some '"' := by decide

theorem insLit_idx_zero : insLit[0]? = some 'I' := by decide

theorem insLit_idx_six : insLit[6]? = some ' ' := by decide

theorem insLit_len : insLit.length = 12 := by decide

theorem insLit_self_overlap : ∀ j, 1 ≤ j → j ≤ 11 →
    ¬ (∀ m, m < 12 - j → insLit[j + m]? = insLit[m]?) := by decide

/-- The literal `INSERT INTO ` cannot begin at a strict offset into itself. -/
theorem not_prefix_drop_insLit (j : Nat) (h1 : 1 ≤ j) (h11 : j ≤ 11) (z : List Char) :
    ¬ insLit <+: (insLit.drop j ++ z) := by
  intro hpre
  apply insLit_self_overlap j h1 h11
  intro m hm
  have hml : m < (insLit.drop j).length := by
    rw [List.length_drop, insLit_len]
    omega
  have h1' : (insLit.drop j ++ z)[m]? = (insLit.drop j)[m]? := List.getElem?_append_left hml
  have h2' : (insLit.drop j)[m]? = insLit[j + m]? := by
    rw [List.getElem?_drop]
  have h3' : (insLit.drop j ++ z)[m]? = insLit[m]? :=
    getElem?_of_isPrefix hpre (by rw [insLit_len]; omega)
  rw [← h2', ← h1', h3']

/-- The literal cannot begin inside the quoted name region: any run of
name characters followed by a double quote defeats it. -/
theorem not_prefix_name_quote (u z : List Char) (hu : ∀ c ∈ u, nameChar c = true) :
    ¬ insLit <+: (u ++ '"' :: z) := by
  intro hpre
  by_cases h12 : 12 ≤ u.length
  · have h6 : (u ++ '"' :: z)[6]? = u[6]? := List.getElem?_append_left (by omega)
    have h6' : (u ++ '"' :: z)[6]? = some ' ' := by
      rw [getElem?_of_isPrefix hpre (by rw [insLit_len]; omega), insLit_idx_six]
    have hmem : ' ' ∈ u := by
      have := h6.symm.trans h6'
      exact List.getElem?_mem this
    have := hu ' ' hmem
    cases this
  · have hq : (u ++ '"' :: z)[u.length]? = some '"' := by
      rw [List.getElem?_append_right le_rfl]
      simp
    have hq' : (u ++ '"' :: z)[u.length]? = insLit[u.length]? :=
      getElem?_of_isPrefix hpre (by rw [insLit_len]; omega)
    exact insLit_no_quote u.length (by omega) (hq'.symm.trans hq)

theorem isPrefixOf_eq_false_of_no_match {l₁ l₂ : List Char} (h : ¬ l₁ <+: l₂) :
    l₁.isPrefixOf l₂ = false := by
  cases hb : l₁.isPrefixOf l₂
  · rfl
  · exact absurd (isPrefixOf_eq_true_iff.mp hb) h

/-- `insM` misses exactly when the literal is not a prefix or the
character after it is not a name character. -/
theorem insM_none_iff (q : Option Char) (s : List Char) :
    insM q s = none ↔
      (insLit.isPrefixOf s = false ∨ ∀ c, s[12]? = some c → nameChar c = false) := by
  unfold insM
  cases hpre : insLit.isPrefixOf s with
  | false => simp
  | true =>
    simp only [if_true, Bool.true_eq_false, false_or]
    have hhead : (s.drop 12).head? = s[12]? := by
      rw [List.head?_drop]
    cases hd : s.drop 12 with
    | nil =>
      have h12 : s[12]? = none := by rw [← hhead, hd]; rfl
      simp only [hd, List.takeWhile_nil]
      constructor
      · intro _ c hc
        rw [h12] at hc
        cases hc
      · intro _
        rfl
    | cons c rest =>
      have h12 : s[12]? = some c := by rw [← hhead, hd]; rfl
      cases hnc : nameChar c with
      | true =>
        rw [List.takeWhile_cons_of_pos hnc]
        constructor
        · intro h
          simp at h
        · intro h
          have := h c h12
          rw [hnc] at this
          cases this
      | false =>
        rw [List.takeWhile_cons_of_neg (by simp [hnc])]
        constructor
        · intro _ c' hc'
          rw [h12] at hc'
          cases hc'
          exact hnc
        · intro _
          rfl

theorem prefix12_iff (s : List Char) : insLit.isPrefixOf s = true ↔ s.take 12 = insLit := by
  rw [isPrefixOf_eq_true_iff, List.prefix_iff_eq_take, insLit_len]
  exact eq_comm

theorem take12_append_congr (x c1 c2 : List Char) (h : c1.take 12 = c2.take 12) :
    (x ++ c1).take 12 = (x ++ c2).take 12 := by
  rw [List.take_append_eq_append_take, List.take_append_eq_append_take]
  congr 1
  have hmin : min (12 - x.length) 12 = 12 - x.length := by omega
  calc c1.take (12 - x.length) = (c1.take 12).take (12 - x.length) := by
        rw [List.take_take, hmin]
  _ = (c2.take 12).take (12 - x.length) := by rw [h]
  _ = c2.take (12 - x.length) := by rw [List.take_take, hmin]

theorem getElem12_append_congr (x c1 c2 : List Char) (hx : x ≠ [])
    (h : c1.take 12 = c2.take 12) : (x ++ c1)[12]? = (x ++ c2)[12]? := by
  by_cases h12 : 12 < x.length
  · rw [List.getElem?_append_left h12, List.getElem?_append_left h12]
  · push_neg at h12
    rw [List.getElem?_append_right h12, List.getElem?_append_right h12]
    have hlt : 12 - x.length < 12 := by
      have : 0 < x.length := List.length_pos.mpr hx
      omega
    calc c1[12 - x.length]? = (c1.take 12)[12 - x.length]? :=
          (List.getElem?_take_of_lt hlt).symm
    _ = (c2.take 12)[12 - x.length]? := by rw [h]
    _ = c2[12 - x.length]? := List.getElem?_take_of_lt hlt

/-- Whether `insM` misses at a position inside `x` depends only on the
first 12 characters of the continuation. -/
theorem insM_none_congr (x c1 c2 : List Char) (hx : x ≠ [])
    (h12 : c1.take 12 = c2.take 12) (h : insM none (x ++ c1) = none) :
    insM none (x ++ c2) = none := by
  rw [insM_none_iff] at h ⊢
  rcases h with h | h
  · left
    cases hb : insLit.isPrefixOf (x ++ c2) with
    | false => rfl
    | true =>
      exfalso
      have ht := (prefix12_iff _).mp hb
      rw [← take12_append_congr x c1 c2 h12] at ht
      rw [(prefix12_iff _).mpr ht] at h
      cases h
  · right
    intro c hc
    apply h
    rw [getElem12_append_congr x c1 c2 hx h12]
    exact hc

/-- The output of one replacement admits no match at any position of the
replacement itself; matches can only live in the scanned tail `T`. -/
theorem noIns_repl (nm T : List Char) (hnm : nm ≠ []) (hname : ∀ c ∈ nm, nameChar c = true)
    (hT : NoIns T) : NoIns (insLit ++ '"' :: (nm ++ '"' :: T)) := by
  intro n
  by_cases hA : n ≤ 12
  · have hdropA : (insLit ++ '"' :: (nm ++ '"' :: T)).drop n =
        insLit.drop n ++ '"' :: (nm ++ '"' :: T) := by
      rw [List.drop_append_eq_append_drop,
        show n - insLit.length = 0 by rw [insLit_len]; omega, List.drop_zero]
    rw [hdropA]
    by_cases h0 : n = 0
    · subst h0
      rw [insM_none_iff]
      right
      intro c hc
      rw [List.drop_zero] at hc
      have h12 : (insLit ++ '"' :: (nm ++ '"' :: T))[12]? = some '"' := by
        rw [List.getElem?_append_right (by rw [insLit_len]), insLit_len]
        simp
      rw [h12] at hc
      cases hc
      rfl
    · by_cases h12 : n = 12
      · subst h12
        rw [insM_none_iff]
        left
        rw [show insLit.drop 12 = [] from rfl, List.nil_append]
        apply isPrefixOf_eq_false_of_no_match
        exact not_prefix_name_quote [] (nm ++ '"' :: T) (by intro c hc; cases hc)
      · rw [insM_none_iff]
        left
        apply isPrefixOf_eq_false_of_no_match
        exact not_prefix_drop_insLit n (by omega) (by omega) _
  · push_neg at hA
    have hsplit13 : insLit ++ '"' :: (nm ++ '"' :: T) =
        (insLit ++ ['"']) ++ (nm ++ '"' :: T) := by simp
    by_cases hB : n ≤ 13 + nm.length
    · have hdropB : (insLit ++ '"' :: (nm ++ '"' :: T)).drop n =
          nm.drop (n - 13) ++ '"' :: T := by
        rw [hsplit13, List.drop_append_eq_append_drop,
          List.drop_eq_nil_of_le (by simp [insLit_len]; omega),
          show n - (insLit ++ ['"']).length = n - 13 by simp [insLit_len],
          List.nil_append, List.drop_append_eq_append_drop,
          show n - 13 - nm.length = 0 by omega, List.drop_zero]
      rw [hdropB, insM_none_iff]
      left
      apply isPrefixOf_eq_false_of_no_match
      exact not_prefix_name_quote _ _ (fun c hc => hname c (List.mem_of_mem_drop hc))
    · push_neg at hB
      have hsplit14 : insLit ++ '"' :: (nm ++ '"' :: T) =
          (insLit ++ '"' :: (nm ++ ['"'])) ++ T := by simp
      have hdropC : (insLit ++ '"' :: (nm ++ '"' :: T)).drop n =
          T.drop (n - (14 + nm.length)) := by
        rw [hsplit14, List.drop_append_eq_append_drop,
          List.drop_eq_nil_of_le (by simp [insLit_len]; omega),
          show n - (insLit ++ '"' :: (nm ++ ['"'])).length = n - (14 + nm.length) by
            simp [insLit_len]; omega,
          List.nil_append]
      rw [hdropC]
      exact hT _

theorem insM_some_inv (q : Option Char) (b r : List Char) (kp : Nat)
    (h : insM q b = some (r, kp)) :
    ∃ rest, b = insLit ++ rest ∧
      r = insLit ++ '"' :: (rest.takeWhile nameChar ++ ['"']) ∧
      kp = 11 + (rest.takeWhile nameChar).length ∧
      rest.takeWhile nameChar ≠ [] := by
  unfold insM at h
  split at h
  case isFalse => cases h
  case isTrue hpre =>
    dsimp only at h
    split at h
    case isTrue => cases h
    case isFalse hne =>
      simp only [Option.some.injEq, Prod.mk.injEq] at h
      obtain ⟨hr, hkp⟩ := h
      obtain ⟨rest, hrest⟩ := isPrefixOf_eq_true_iff.mp hpre
      have hdrop : b.drop 12 = rest := by
        rw [← hrest, show (12 : Nat) = insLit.length from rfl]
        exact List.drop_left _ _
      rw [hdrop] at hr hkp hne
      refine ⟨rest, hrest.symm, hr.symm, hkp.symm, ?_⟩
      intro hnil
      rw [hnil] at hne
      simp at hne

theorem noIns_scan_aux : ∀ (N : Nat) (s : List Char), s.length ≤ N →
    ∀ p, NoIns (scanM insM p s) := by
  intro N
  induction N with
  | zero =>
    intro s hs p
    have : s = [] := List.length_eq_zero.mp (Nat.le_zero.mp hs)
    subst this
    intro n
    rw [scanM_nil, List.drop_nil]
    rfl
  | succ N ih =>
    intro s hs p
    rcases scanM_split insM (fun q q' t => rfl) s with hall | hsome
    · rw [scanM_id_of_none insM p s hall]
      intro n
      by_cases hn : n < s.length
      · exact hall none n hn
      · rw [List.drop_eq_nil_of_le (by omega)]
        rfl
    · obtain ⟨a, b, hab, hnon, r, kp, hfire⟩ := hsome
      obtain ⟨rest, hb, hr, hkp, hne⟩ := insM_some_inv none b r kp hfire
      have happ : scanM insM p s = a ++ scanM insM (lastCh p a) b := by
        rw [hab]
        apply scanM_append
        intro q n hn
        rw [← hab]
        exact hnon q n hn
      have hbne : b ≠ [] := by
        rw [hb]
        simp [insLit]
      have hscanb : scanM insM (lastCh p a) b =
          r ++ scanM insM (b[kp]?) (b.drop (kp + 1)) :=
        scanM_head_match _ _ _ _ _ hbne hfire
      have hblen : b.length ≤ s.length := by
        rw [hab]
        simp
      have hdlen : (b.drop (kp + 1)).length ≤ N := by
        rw [List.length_drop]
        have hbpos : 0 < b.length := List.length_pos.mpr hbne
        omega
      have hT : NoIns (scanM insM (b[kp]?) (b.drop (kp + 1))) :=
        ih (b.drop (kp + 1)) hdlen _
      rw [happ, hscanb]
      intro n
      by_cases hna : n < a.length
      · have horig : insM none (s.drop n) = none := hnon none n hna
        have hsdrop : s.drop n = a.drop n ++ b := by
          rw [hab, List.drop_append_of_le_length (le_of_lt hna)]
        have hodrop : (a ++ (r ++ scanM insM (b[kp]?) (b.drop (kp + 1)))).drop n =
            a.drop n ++ (r ++ scanM insM (b[kp]?) (b.drop (kp + 1))) :=
          List.drop_append_of_le_length (le_of_lt hna)
        have hxne : a.drop n ≠ [] := by
          intro hnil
          have := congrArg List.length hnil
          rw [List.length_drop] at this
          simp at this
          omega
        have hb12 : b.take 12 = insLit := by
          rw [hb]
          exact List.take_left' insLit_len
        have hrT12 : (r ++ scanM insM (b[kp]?) (b.drop (kp + 1))).take 12 = insLit := by
          rw [hr, List.append_assoc]
          exact List.take_left' insLit_len
        rw [hodrop]
        exact insM_none_congr (a.drop n) b _ hxne (by rw [hb12, hrT12])
          (by rw [← hsdrop]; exact horig)
      · have hred : (a ++ (r ++ scanM insM (b[kp]?) (b.drop (kp + 1)))).drop n =
            (r ++ scanM insM (b[kp]?) (b.drop (kp + 1))).drop (n - a.length) := by
          rw [List.drop_append_eq_append_drop,
            List.drop_eq_nil_of_le (by omega), List.nil_append]
        rw [hred]
        have hform : r ++ scanM insM (b[kp]?) (b.drop (kp + 1)) =
            insLit ++ '"' :: (rest.takeWhile nameChar ++
              '"' :: scanM insM (b[kp]?) (b.drop (kp + 1))) := by
          rw [hr]
          simp
        rw [hform]
        exact noIns_repl _ _ hne (fun c hc => List.mem_takeWhile_imp hc) hT _

theorem noIns_scan (s : List Char) (p : Option Char) : NoIns (scanM insM p s) :=
  noIns_scan_aux s.length s le_rfl p

theorem noIns_id (s : List Char) (p : Option Char) (h : NoIns s) : scanM insM p s = s :=
  scanM_id_of_none _ _ _ (fun q n _ => h n)

/-- C10: the table-name quoting pass (the same `insM` pass both converters
run) is idempotent: applying it twice gives the same result as once.  Its
output never contains a matchable site, since a match needs the literal
followed by a name character, and every emitted literal is followed by a
double quote. -/
theorem C10_table_quote_idempotent (s : List Char) :
    scanM insM none (scanM insM none s) = scanM insM none s :=
  noIns_id _ none (noIns_scan s none)
